import Mathlib

/-!
Verification development for the kicad-traceformer project collector.

The Python sources are shallowly embedded:
  * `src/plugin/kicad_parser.py`  — S-expression tokenizer/parser and tree
    query helpers (`parse_kicad`, `find_elements`, `get_property`,
    `get_element_value`);
  * `src/plugin/project_collector.py` — the `ProjectCollector` class
    (`collect_all` phases, `_resolve_lib_path`, `_is_external`,
    `get_files_for_zip`).

Python values are modelled as follows: strings are `String`, `pathlib.Path`
values are `MyPath` (an absolute-flag plus a component list; the filesystem
model contains no symbolic links, so `Path.resolve()` is pure `..`/`.`
normalisation), the filesystem is an association list from canonical paths
to file contents, `set` is `Finset`, `dict` is an association list with
Python's update-in-place/append semantics, and exceptions do not arise
because every partial operation of the source is guarded (`exists()` before
`read_text()`, and the parser is total).

The two recursive procedures of the source that are not structurally
recursive (`_parse_tokens` and `_parse_schematic_sheets`) are embedded with
an explicit fuel parameter; theorems below prove that the fuel chosen by the
top-level wrappers is sufficient (the result is stable under any larger
fuel), which is exactly the termination content of the corresponding claims.
-/

/-! ### S-expression data model (kicad_parser.py) -/

/-- Node of the S-expression tree: `SExpr = Union[str, List["SExpr"]]` in the
source. An `atom` is a Python `str`, a `list` is a Python list of nodes. -/
inductive SExpr where
  | atom (s : String)
  | list (xs : List SExpr)

/-!
Decidable equality for `SExpr` (mutual with the list version because the
inductive is nested).
-/
mutual
def sexprDecEq : (a b : SExpr) → Decidable (a = b)
  | .atom x, .atom y =>
    if h : x = y then .isTrue (by rw [h]) else .isFalse (fun hh => h (by cases hh; rfl))
  | .atom _, .list _ => .isFalse (fun h => SExpr.noConfusion h)
  | .list _, .atom _ => .isFalse (fun h => SExpr.noConfusion h)
  | .list xs, .list ys =>
    match sexprDecEqList xs ys with
    | .isTrue h => .isTrue (by rw [h])
    | .isFalse h => .isFalse (fun hh => h (by cases hh; rfl))

def sexprDecEqList : (xs ys : List SExpr) → Decidable (xs = ys)
  | [], [] => .isTrue rfl
  | [], _ :: _ => .isFalse (fun h => List.noConfusion h)
  | _ :: _, [] => .isFalse (fun h => List.noConfusion h)
  | x :: xs, y :: ys =>
    match sexprDecEq x y, sexprDecEqList xs ys with
    | .isTrue h1, .isTrue h2 => .isTrue (by rw [h1, h2])
    | .isFalse h1, _ => .isFalse (fun hh => h1 (by cases hh; rfl))
    | _, .isFalse h2 => .isFalse (fun hh => h2 (by cases hh; rfl))
end

instance : DecidableEq SExpr := sexprDecEq

/-! ### Tokenizer (`_tokenize`)

Tokens are kept as `List Char`; `text[i:j]` slices become explicit list
recursions. The index-based `while` loop is a linear scan consuming at
least one character per emitted step, so fuel `length + 1` is exact. -/

/-- Whitespace set of `_tokenize`: `char in " \t\n\r"`. -/
def isWs (c : Char) : Bool := c = ' ' || c = '\t' || c = '\n' || c = '\r'

/-- Characters terminating an unquoted atom: `text[j] not in " \t\n\r()\""`. -/
def isDelim (c : Char) : Bool := isWs c || c = '(' || c = ')' || c = '"'

/-- Scan of a quoted string after the opening quote (the inner `while` of
`_tokenize`): a backslash consumes the following character as well
(`j += 2`), an unescaped quote closes the token. Returns the token tail
(including the closing quote when found — quotes are kept in the token) and
the remaining input. A backslash as the final character, or running out of
input, ends the token without a closing quote, matching the clamped Python
slice `text[i : j + 1]`. -/
def takeQuoted : List Char → List Char × List Char
  | [] => ([], [])
  | '\\' :: c :: rest =>
    let tr := takeQuoted rest
    ('\\' :: c :: tr.1, tr.2)
  | '\\' :: [] => (['\\'], [])
  | '"' :: rest => (['"'], rest)
  | c :: rest =>
    let tr := takeQuoted rest
    (c :: tr.1, tr.2)

/-- Scan of an unquoted atom: the maximal run of non-delimiter characters. -/
def takeAtom : List Char → List Char × List Char
  | [] => ([], [])
  | c :: rest =>
    if isDelim c then ([], c :: rest)
    else
      let tr := takeAtom rest
      (c :: tr.1, tr.2)

/-- Fuelled tokenizer loop (`while i < length` in `_tokenize`). -/
def tokenizeAux : Nat → List Char → List (List Char)
  | 0, _ => []
  | _ + 1, [] => []
  | fuel + 1, c :: rest =>
    if isWs c then tokenizeAux fuel rest
    else if c = '(' then ['('] :: tokenizeAux fuel rest
    else if c = ')' then [')'] :: tokenizeAux fuel rest
    else if c = '"' then
      let tr := takeQuoted rest
      ('"' :: tr.1) :: tokenizeAux fuel tr.2
    else
      let tr := takeAtom (c :: rest)
      tr.1 :: tokenizeAux fuel tr.2

/-- The function `_tokenize(text)`. -/
def tokenize (text : String) : List (List Char) :=
  tokenizeAux (text.toList.length + 1) text.toList

/-! ### Quoted-atom unescaping (`_parse_tokens`, atom branch) -/

/-- Python `str.replace(old, new)` specialised to a two-character pattern
`[a, b]` and a one-character replacement `r`: leftmost-first,
non-overlapping, scanning resumes after each replacement. -/
def pyReplace2 (a b r : Char) : List Char → List Char
  | [] => []
  | [c] => [c]
  | x :: y :: rest =>
    if x = a ∧ y = b then r :: pyReplace2 a b r rest
    else x :: pyReplace2 a b r (y :: rest)

/-- Atom-token interpretation of `_parse_tokens`: a token that both starts
and ends with a double quote has the quotes stripped (`token[1:-1]`) and the
escape sequences resolved by `value.replace('\\"', '"').replace("\\\\", "\\")`;
any other token is the atom value verbatim. -/
def unquote (tok : List Char) : String :=
  if tok.head? = some '"' ∧ tok.getLast? = some '"' then
    let mid := (tok.drop 1).dropLast
    String.mk (pyReplace2 '\\' '\\' '\\' (pyReplace2 '\\' '"' '"' mid))
  else String.mk tok

/-! ### Token parser (`_parse_tokens`)

`_parse_tokens(tokens, pos)` is recursive descent over a token array; the
position-based form is embedded as functions from the remaining token list,
with fuel for the non-structural recursion. `parseOneF` is the body of
`_parse_tokens`; `parseItemsF` is its internal `while` loop collecting the
children of a list until a closing parenthesis (consumed) or the end of the
tokens. Exhausted input returns `[]` (the empty Python list). -/

mutual
def parseOneF : Nat → List (List Char) → SExpr × List (List Char)
  | 0, ts => (.list [], ts)
  | _ + 1, [] => (.list [], [])
  | fuel + 1, t :: rest =>
    if t = ['('] then
      let ir := parseItemsF fuel rest
      (.list ir.1, ir.2)
    else if t = [')'] then (.list [], rest)
    else (.atom (unquote t), rest)

def parseItemsF : Nat → List (List Char) → List SExpr × List (List Char)
  | 0, ts => ([], ts)
  | _ + 1, [] => ([], [])
  | fuel + 1, t :: rest =>
    if t = [')'] then ([], rest)
    else
      let ir := parseOneF fuel (t :: rest)
      let ir2 := parseItemsF fuel ir.2
      (ir.1 :: ir2.1, ir2.2)
end

/-- The function `parse_kicad(text)`: tokenize, parse one top-level
expression from position 0, discard the final position (and with it any
remaining tokens). The fuel `2 * n + 1` is sufficient, as proved below. -/
def parse_kicad (text : String) : SExpr :=
  let toks := tokenize text
  (parseOneF (2 * toks.length + 1) toks).1

/-! ### Tree query helpers -/

/-!
Python `str(x)` applied to an `SExpr` (used by `get_property` and
`get_element_value`): a `str` is returned unchanged, a list is rendered with
`repr` of its elements. The rendering of nested lists mirrors Python's
`str(list)` format; claims only exercise it on atoms.
-/
mutual
def pyRepr : SExpr → String
  | .atom s => "'" ++ s ++ "'"
  | .list xs => "[" ++ pyReprList xs ++ "]"

def pyReprList : List SExpr → String
  | [] => ""
  | [x] => pyRepr x
  | x :: y :: rest => pyRepr x ++ ", " ++ pyReprList (y :: rest)
end

/-- Python `str` coercion of a node. -/
def pyStr : SExpr → String
  | .atom s => s
  | .list xs => "[" ++ pyReprList xs ++ "]"

/-- Head test of `_find_elements_recursive`:
`len(node) > 0 and node[0] == element_name`. -/
def headMatches (name : String) (xs : List SExpr) : Bool :=
  match xs with
  | .atom a :: _ => a == name
  | _ => false

/-!
The function `_find_elements_recursive` (results accumulated in
pre-order: the node itself first, then its children left to right), mutual
with the loop over children (`for child in node: if isinstance(child, list)`).
-/
mutual
def findElementsRec (name : String) : SExpr → List (List SExpr)
  | .atom _ => []
  | .list xs =>
    (if headMatches name xs then [xs] else []) ++ findElementsList name xs

def findElementsList (name : String) : List SExpr → List (List SExpr)
  | [] => []
  | x :: xs =>
    (match x with
     | .list _ => findElementsRec name x
     | .atom _ => []) ++ findElementsList name xs
end

/-- The function `find_elements(tree, element_name)`. -/
def find_elements (tree : SExpr) (element_name : String) : List (List SExpr) :=
  findElementsRec element_name tree

/-- The function `get_property(element, property_name)`: scan the immediate
children for a list of length at least 3 whose first element is the string
`"property"` and whose second element is the string `property_name`; return
`str` of its third element. -/
def get_property (element : List SExpr) (property_name : String) : Option String :=
  match element.find? (fun item =>
    match item with
    | .list (.atom "property" :: .atom n :: _ :: _) => n == property_name
    | _ => false) with
  | some (.list (_ :: _ :: v :: _)) => some (pyStr v)
  | _ => none

/-- The function `get_element_value(element, key)`: scan the immediate
children for a list of length at least 2 whose first element is the string
`key`; return `str` of its second element. -/
def get_element_value (element : List SExpr) (key : String) : Option String :=
  match element.find? (fun item =>
    match item with
    | .list (.atom k :: _ :: _) => k == key
    | _ => false) with
  | some (.list (_ :: v :: _)) => some (pyStr v)
  | _ => none

/-! ### Path model (`pathlib.Path`)

A path is an absolute-flag plus a list of components. The filesystem model
below contains no symbolic links and all collector entry points receive
absolute paths, so `Path.resolve()` is pure lexical normalisation of `.`
and `..` segments. -/

structure MyPath where
  abs : Bool
  comps : List String
deriving DecidableEq

/-- Split a character list at `/` separators. -/
def splitSlash : List Char → List (List Char)
  | [] => [[]]
  | c :: rest =>
    if c = '/' then [] :: splitSlash rest
    else
      match splitSlash rest with
      | [] => [[c]]
      | g :: gs => (c :: g) :: gs

/-- The `Path(string)` constructor: leading `/` makes the path absolute,
empty and `.` components are normalised away (as `pathlib` does), `..`
components are kept. -/
def MyPath.ofString (s : String) : MyPath :=
  ⟨s.toList.head? = some '/',
   ((splitSlash s.toList).map (fun l => String.mk l)).filter (fun c => c ≠ "" ∧ c ≠ ".")⟩

/-- Left-to-right normalisation pass over path components with the
already-normalised prefix as accumulator. -/
def normCompsAux (acc : List String) : List String → List String
  | [] => acc
  | c :: rest =>
    if c = "" ∨ c = "." then normCompsAux acc rest
    else if c = ".." then normCompsAux acc.dropLast rest
    else normCompsAux (acc ++ [c]) rest

/-- Normalisation of `..` (and defensively `.`/empty) segments performed by
`Path.resolve()` in a link-free filesystem: `..` drops the preceding
component (`/..` stays at the root, matching POSIX resolution). -/
def normComps (cs : List String) : List String := normCompsAux [] cs

/-- The method `Path.resolve()` in the link-free model. -/
def MyPath.resolve (p : MyPath) : MyPath := ⟨p.abs, normComps p.comps⟩

/-- The `/` operator of `pathlib`: an absolute right operand replaces the
left one, otherwise components are concatenated. -/
def MyPath.join (p q : MyPath) : MyPath :=
  if q.abs then q else ⟨p.abs, p.comps ++ q.comps⟩

/-- The property `Path.parent`. -/
def MyPath.parent (p : MyPath) : MyPath := ⟨p.abs, p.comps.dropLast⟩

/-- The property `Path.name` (empty for a bare root, as in `pathlib`). -/
def MyPath.name (p : MyPath) : String := p.comps.getLast?.getD ""

/-- The method `p.relative_to(base)`: succeeds exactly when `base`'s
components are a prefix of `p`'s (no `..` insertion), returning the
remainder; `none` models the `ValueError`. -/
def MyPath.relativeTo (p base : MyPath) : Option MyPath :=
  if p.abs = base.abs ∧ base.comps.isPrefixOf p.comps then
    some ⟨false, p.comps.drop base.comps.length⟩
  else none

/-- Python `str(path)`. -/
def MyPath.toString (p : MyPath) : String :=
  if p.abs then "/" ++ String.intercalate "/" p.comps
  else if p.comps = [] then "." else String.intercalate "/" p.comps

/-- The property `Path.stem` (CPython: the name up to its last dot, when
that dot is neither the first nor the last character of the name). -/
def pyStem (n : String) : String :=
  let cs := n.toList
  match cs.reverse.findIdx? (fun c => c = '.') with
  | none => n
  | some k =>
    let i := cs.length - 1 - k
    if 0 < i ∧ i < cs.length - 1 then String.mk (cs.take i) else n

/-! ### Filesystem model -/

/-- A filesystem is a finite association of canonical absolute paths to
file contents. -/
abbrev FS := List (MyPath × String)

/-- Content lookup at an (already canonical) path. -/
def lookupFS (fs : FS) (q : MyPath) : Option String :=
  (fs.find? (fun e => e.1 == q)).map (fun e => e.2)

/-- The method `Path.exists()`: the OS resolves the path, so the lookup is
by canonical path. -/
def pathExists (fs : FS) (p : MyPath) : Bool := (lookupFS fs p.resolve).isSome

/-- The method `Path.read_text()`; total because every call site of the
source checks `exists()` first (the model has no I/O failures). -/
def readText (fs : FS) (p : MyPath) : String := (lookupFS fs p.resolve).getD ""

/-- The set of canonical paths present in the filesystem (used to bound the
fuel of the hierarchy traversal). -/
def fsDom (fs : FS) : Finset MyPath := (fs.map Prod.fst).toFinset

/-! ### Collector state (`ProjectCollector.__init__`) -/

/-- The mutable state of a `ProjectCollector`: `collected_files` is the
Python `set`, `external_files` the Python `dict` (association list with
insertion order and update-in-place), `warnings` the warning list. -/
structure Collector where
  collected_files : Finset MyPath
  external_files : List (MyPath × String)
  warnings : List String
deriving DecidableEq

/-- The freshly initialised collector. -/
def Collector.init : Collector := ⟨∅, [], []⟩

/-- Python `dict` assignment `d[k] = v`: update in place when the key is
present, append otherwise. -/
def dictInsert (l : List (MyPath × String)) (k : MyPath) (v : String) : List (MyPath × String) :=
  if l.any (fun e => e.1 == k) then l.map (fun e => if e.1 == k then (k, v) else e)
  else l ++ [(k, v)]

/-- Python `dict` lookup, as used to model the mapping built by
`get_files_for_zip`. -/
def lookupAssoc (l : List (MyPath × String)) (k : MyPath) : Option String :=
  (l.find? (fun e => e.1 == k)).map (fun e => e.2)

/-! ### Phase A (`_collect_core_files`) -/

/-- The method `_collect_core_files`: add the pcb file if it exists, then
the `.kicad_pro` and `.kicad_sch` siblings, warning when either sibling is
missing. -/
def collect_core_files (fs : FS) (pcbPath : MyPath) (c : Collector) : Collector :=
  let projectDir := pcbPath.parent
  let projectName := pyStem pcbPath.name
  let c1 :=
    if pathExists fs pcbPath then { c with collected_files := insert pcbPath c.collected_files }
    else c
  let proPath := projectDir.join (MyPath.ofString (projectName ++ ".kicad_pro"))
  let c2 :=
    if pathExists fs proPath then { c1 with collected_files := insert proPath c1.collected_files }
    else { c1 with warnings := c1.warnings ++ ["Project file not found: " ++ proPath.name] }
  let schPath := projectDir.join (MyPath.ofString (projectName ++ ".kicad_sch"))
  if pathExists fs schPath then { c2 with collected_files := insert schPath c2.collected_files }
  else { c2 with warnings := c2.warnings ++ ["Schematic file not found: " ++ schPath.name] }

/-! ### Phase B (`_collect_schematic_hierarchy` / `_parse_schematic_sheets`) -/

/-- Body of the `for sheet in sheets` loop of `_parse_schematic_sheets`,
parameterised by the recursive call `recur`: extract the `Sheetfile`
property (skipping when absent or empty, Python truthiness), resolve it
against the current schematic's directory, and either add-and-recurse or
warn. -/
def processSheet (recur : MyPath → Collector → Finset MyPath → Collector × Finset MyPath)
    (fs : FS) (schPath : MyPath) (st : Collector × Finset MyPath) (sheet : List SExpr) :
    Collector × Finset MyPath :=
  match get_property sheet "Sheetfile" with
  | none => st
  | some sheetFile =>
    if sheetFile = "" then st
    else
      let sheetPath := schPath.parent.join (MyPath.ofString sheetFile)
      if pathExists fs sheetPath then
        let c' := { st.1 with collected_files := insert sheetPath.resolve st.1.collected_files }
        recur sheetPath c' st.2
      else
        ({ st.1 with warnings := st.1.warnings ++ ["Subsheet not found: " ++ sheetFile] }, st.2)

/-- The method `_parse_schematic_sheets(sch_path, visited)`, fuelled: early
return on a visited canonical path, mark visited, warn if the file is
missing, otherwise parse it and fold the sheet elements. The top-level
wrapper supplies sufficient fuel (proved below). -/
def parseSchematicSheetsF : Nat → FS → MyPath → Collector → Finset MyPath →
    Collector × Finset MyPath
  | 0, _, _, c, visited => (c, visited)
  | fuel + 1, fs, schPath, c, visited =>
    if schPath.resolve ∈ visited then (c, visited)
    else
      let visited' := insert schPath.resolve visited
      if pathExists fs schPath then
        let tree := parse_kicad (readText fs schPath)
        let sheets := find_elements tree "sheet"
        sheets.foldl (processSheet (parseSchematicSheetsF fuel fs) fs schPath) (c, visited')
      else
        ({ c with warnings := c.warnings ++ ["Referenced schematic not found: " ++ schPath.toString] },
         visited')

/-- The method `_collect_schematic_hierarchy`: a no-op when the primary
schematic does not exist, otherwise the traversal from it with an empty
visited set. -/
def collect_schematic_hierarchy (fs : FS) (pcbPath : MyPath) (c : Collector) : Collector :=
  let projectDir := pcbPath.parent
  let projectName := pyStem pcbPath.name
  let mainSch := projectDir.join (MyPath.ofString (projectName ++ ".kicad_sch"))
  if pathExists fs mainSch then
    (parseSchematicSheetsF ((fsDom fs).card + 1) fs mainSch c ∅).1
  else c

/-! ### Phase C (`_collect_symbol_libraries` and helpers) -/

/-- Python `str.startswith` on the character lists. -/
def pyStartsWith (s pre : String) : Bool := pre.toList.isPrefixOf s.toList

/-- Fuelled Python `str.replace(old, new)` for a general non-empty pattern:
leftmost-first, non-overlapping, scanning resumes after the replacement. -/
def pyReplaceAllAux (pat new : List Char) : Nat → List Char → List Char
  | 0, l => l
  | _ + 1, [] => []
  | fuel + 1, c :: rest =>
    if pat.isPrefixOf (c :: rest) then new ++ pyReplaceAllAux pat new fuel (rest.drop (pat.length - 1))
    else c :: pyReplaceAllAux pat new fuel rest

/-- Python `str.replace(old, new)` (the source only calls it with a
non-empty pattern; each step consumes at least one character, so fuel
`length + 1` is sufficient). -/
def pyReplaceAll (s pat new : String) : String :=
  if pat.toList = [] then s
  else String.mk (pyReplaceAllAux pat.toList new.toList (s.toList.length + 1) s.toList)

/-- The method `_resolve_lib_path(uri)`: skip `${KICAD...}` system
libraries, substitute `${KIPRJMOD}` with the project directory, normalise
backslashes to forward slashes, and resolve a still-relative path against
the project directory. -/
def resolve_lib_path (projectDir : MyPath) (uri : String) : Option MyPath :=
  if pyStartsWith uri "$\x7bKICAD" then none
  else
    let uri1 :=
      if pyStartsWith uri "$\x7bKIPRJMOD\x7d" then
        pyReplaceAll uri "$\x7bKIPRJMOD\x7d" projectDir.toString
      else uri
    let uri2 := String.mk (uri1.toList.map (fun ch => if ch = '\\' then '/' else ch))
    let path := MyPath.ofString uri2
    some (if ¬ path.abs then projectDir.join path else path)

/-- The method `_is_external(path)`: `path.resolve().relative_to(project_dir.resolve())`
raising `ValueError` means external. -/
def is_external (projectDir : MyPath) (path : MyPath) : Bool :=
  (path.resolve.relativeTo projectDir.resolve).isNone

/-- Body of the `for lib in libs` loop of `_collect_symbol_libraries`:
extract the `uri` value (skipping when absent or empty), resolve it
(skipping system libraries), then classify an existing file as external
(recorded under its declared name, else its filename) or internal (added to
the collected set), warning when the file is missing. -/
def processLib (fs : FS) (projectDir : MyPath) (c : Collector) (lib : List SExpr) : Collector :=
  match get_element_value lib "uri" with
  | none => c
  | some uri =>
    if uri = "" then c
    else
      match resolve_lib_path projectDir uri with
      | none => c
      | some libPath =>
        if pathExists fs libPath then
          if is_external projectDir libPath then
            let libName :=
              match get_element_value lib "name" with
              | some n => if n = "" then libPath.name else n
              | none => libPath.name
            { c with external_files := dictInsert c.external_files libPath.resolve libName }
          else
            { c with collected_files := insert libPath.resolve c.collected_files }
        else
          { c with warnings := c.warnings ++ ["Library not found: " ++ uri] }

/-- The method `_collect_symbol_libraries`: a no-op when `sym-lib-table`
does not exist in the project directory, otherwise a fold of `processLib`
over the `lib` elements of its parse. -/
def collect_symbol_libraries (fs : FS) (pcbPath : MyPath) (c : Collector) : Collector :=
  let projectDir := pcbPath.parent
  let libTablePath := projectDir.join (MyPath.ofString "sym-lib-table")
  if pathExists fs libTablePath then
    let tree := parse_kicad (readText fs libTablePath)
    let libs := find_elements tree "lib"
    libs.foldl (processLib fs projectDir) c
  else c

/-- The method `collect_all()`: the three phases in order, starting from a
fresh collector (the constructor's state). -/
def collect_all (fs : FS) (pcbPath : MyPath) : Collector :=
  let c1 := collect_core_files fs pcbPath Collector.init
  let c2 := collect_schematic_hierarchy fs pcbPath c1
  collect_symbol_libraries fs pcbPath c2

/-- The method `get_files_for_zip()`, modelled as the lookup function of the
dict it builds: collected files are written first with their
project-root-relative destination (falling back to the bare filename when
`relative_to` raises), then external libraries overwrite with
`external_libs/<filename>`. -/
def get_files_for_zip (projectDir : MyPath) (c : Collector) (p : MyPath) : Option String :=
  match lookupAssoc c.external_files p with
  | some _ => some ("external_libs/" ++ p.name)
  | none =>
    if p ∈ c.collected_files then
      some (match p.relativeTo projectDir with
            | some r => r.toString
            | none => p.name)
    else none

/-! ### Specification-side definitions used by the theorem statements -/

/-- Canonical escaping of a string body for a KiCad quoted token: `"` and
`\` are preceded by a backslash. Used to state that the parser resolves the
two escape sequences back to the escaped characters. -/
def pyEscape : List Char → List Char
  | [] => []
  | c :: rest => (if c = '"' ∨ c = '\\' then ['\\', c] else [c]) ++ pyEscape rest

/-!
Depth-first pre-order enumeration of all list-shaped subtrees of a tree
(the node itself first, then the subtrees of its children from left to
right). This is the traversal order the specification describes for
`find_elements`; the claim theorem identifies `find_elements` with
filtering this enumeration by the head test.
-/
mutual
def preorderLists : SExpr → List (List SExpr)
  | .atom _ => []
  | .list xs => xs :: preorderListsAux xs

def preorderListsAux : List SExpr → List (List SExpr)
  | [] => []
  | x :: xs =>
    (match x with
     | .list _ => preorderLists x
     | .atom _ => []) ++ preorderListsAux xs
end

/-- Token sequences forming one complete (balanced) S-expression, together
with the node it denotes: a single non-parenthesis token is a complete
atom; an opening parenthesis, the concatenation of complete segments, and a
closing parenthesis form a complete list. Used to state that `parse_kicad`
returns only the first top-level expression of its input. -/
inductive CompleteExpr : List (List Char) → SExpr → Prop where
  | atom (t : List Char) (h1 : t ≠ ['(']) (h2 : t ≠ [')']) :
      CompleteExpr [t] (.atom (unquote t))
  | list (segs : List (List (List Char) × SExpr))
      (h : ∀ p ∈ segs, CompleteExpr p.1 p.2) :
      CompleteExpr (['('] :: (segs.map Prod.fst).flatten ++ [[')']])
        (.list (segs.map Prod.snd))

/-- A path component that can occur in a canonical path: non-empty, not a
dot segment, and containing no separator. -/
def goodComp (c : String) : Prop := c ≠ "" ∧ c ≠ "." ∧ c ≠ ".." ∧ '/' ∉ c.toList

/-- No component contains a path separator (always true of paths built by
`MyPath.ofString`). -/
def SlashFree (p : MyPath) : Prop := ∀ c ∈ p.comps, '/' ∉ c.toList

/-- A canonical absolute path of the (link-free) model: absolute, and every
component is a plain name, so that `resolve` is the identity on it. -/
def IsCanon (p : MyPath) : Prop := p.abs = true ∧ ∀ c ∈ p.comps, goodComp c

instance : DecidablePred goodComp := fun c => by unfold goodComp; infer_instance

instance : DecidablePred IsCanon := fun p => by unfold IsCanon; infer_instance

/-! ### Concrete fixtures used by witnesses and counterexamples -/

/-- Primary design file `/p/x.kicad_pcb`. -/
def pcbX : MyPath := ⟨true, ["p", "x.kicad_pcb"]⟩

/-- The end-to-end scenario of the specification: all core files present,
one sub-sheet, one project-local library referenced via the project-root
placeholder. -/
def fsDemo : FS := [
  (⟨true, ["p", "x.kicad_pcb"]⟩, ""),
  (⟨true, ["p", "x.kicad_pro"]⟩, ""),
  (⟨true, ["p", "x.kicad_sch"]⟩,
    "(kicad_sch (sheet (property \"Sheetfile\" \"sub.kicad_sch\") (at 0 0)))"),
  (⟨true, ["p", "sub.kicad_sch"]⟩, "(kicad_sch)"),
  (⟨true, ["p", "sym-lib-table"]⟩,
    "(sym_lib_table (lib (name \"MyLib\") (uri \"$\x7bKIPRJMOD\x7d/mylib.kicad_sym\")))"),
  (⟨true, ["p", "mylib.kicad_sym"]⟩, "")]

/-- Primary design file `/p/a.kicad_pcb` of the cyclic scenario. -/
def pcbA : MyPath := ⟨true, ["p", "a.kicad_pcb"]⟩

/-- Two-file reference cycle: `a.kicad_sch` references `b.kicad_sch` and
`b.kicad_sch` references `a.kicad_sch`. -/
def fsCycle : FS := [
  (⟨true, ["p", "a.kicad_pcb"]⟩, ""),
  (⟨true, ["p", "a.kicad_pro"]⟩, ""),
  (⟨true, ["p", "a.kicad_sch"]⟩, "(kicad_sch (sheet (property \"Sheetfile\" \"b.kicad_sch\")))"),
  (⟨true, ["p", "b.kicad_sch"]⟩, "(kicad_sch (sheet (property \"Sheetfile\" \"a.kicad_sch\")))")]

/-- A project whose primary schematic references a sub-sheet lying outside
the project root (`../q/sub.kicad_sch`). -/
def fsOut : FS := [
  (⟨true, ["p", "x.kicad_pcb"]⟩, ""),
  (⟨true, ["p", "x.kicad_pro"]⟩, ""),
  (⟨true, ["p", "x.kicad_sch"]⟩, "(kicad_sch (sheet (property \"Sheetfile\" \"../q/sub.kicad_sch\")))"),
  (⟨true, ["q", "sub.kicad_sch"]⟩, "(kicad_sch)")]

/-- The same primary design file addressed through a non-canonical path
containing a `..` segment. -/
def pcbDotted : MyPath := ⟨true, ["p", "e", "..", "x.kicad_pcb"]⟩

/-- A project with one external symbol library outside the project root. -/
def fsExt : FS := [
  (⟨true, ["p", "x.kicad_pcb"]⟩, ""),
  (⟨true, ["p", "x.kicad_pro"]⟩, ""),
  (⟨true, ["p", "x.kicad_sch"]⟩, "(kicad_sch)"),
  (⟨true, ["p", "sym-lib-table"]⟩,
    "(sym_lib_table (lib (name \"ExtLib\") (uri \"/ext/lib.kicad_sym\")))"),
  (⟨true, ["ext", "lib.kicad_sym"]⟩, "")]

/-- A project whose primary schematic (and library table) are missing. -/
def fsMissing : FS := [(⟨true, ["p", "x.kicad_pcb"]⟩, ""), (⟨true, ["p", "x.kicad_pro"]⟩, "")]

/-- The `lib` element of `fsExt`'s `sym-lib-table`, as parsed. -/
def extLibElem : List SExpr :=
  [.atom "lib", .list [.atom "name", .atom "ExtLib"],
   .list [.atom "uri", .atom "/ext/lib.kicad_sym"]]

/-! ## Theorems -/

/-! ### Parser: consumption and fuel stability -/

theorem parse_suffix (f : Nat) :
    (∀ ts, (parseOneF f ts).2 <:+ ts) ∧ (∀ ts, (parseItemsF f ts).2 <:+ ts) := by
  induction f with
  | zero => exact ⟨fun ts => List.suffix_refl ts, fun ts => List.suffix_refl ts⟩
  | succ f ih =>
    refine ⟨fun ts => ?_, fun ts => ?_⟩
    · match ts with
      | [] => simp [parseOneF]
      | t :: rest =>
        simp only [parseOneF]
        split
        · exact (ih.2 rest).trans (List.suffix_cons t rest)
        · split
          · exact List.suffix_cons t rest
          · exact List.suffix_cons t rest
    · match ts with
      | [] => simp [parseItemsF]
      | t :: rest =>
        simp only [parseItemsF]
        split
        · exact List.suffix_cons t rest
        · exact (ih.2 _).trans ((ih.1 (t :: rest)).trans (List.suffix_refl _))

theorem parseOneF_length_lt (f : Nat) (t : List Char) (rest : List (List Char)) :
    (parseOneF (f + 1) (t :: rest)).2.length < (t :: rest).length := by
  simp only [parseOneF]
  split
  · have h := ((parse_suffix f).2 rest).length_le
    simpa using Nat.lt_succ_of_le h
  · split
    · simp
    · simp

theorem parse_stab (f : Nat) :
    (∀ ts, 2 * ts.length ≤ f → parseOneF (f + 1) ts = parseOneF f ts) ∧
    (∀ ts, 2 * ts.length + 1 ≤ f → parseItemsF (f + 1) ts = parseItemsF f ts) := by
  induction f with
  | zero =>
    refine ⟨fun ts h => ?_, fun ts h => absurd h (by omega)⟩
    have hts : ts = [] := by
      cases ts with
      | nil => rfl
      | cons a l => simp at h
    subst hts
    simp [parseOneF]
  | succ f ih =>
    refine ⟨fun ts h => ?_, fun ts h => ?_⟩
    · match ts with
      | [] => simp [parseOneF]
      | t :: rest =>
        have hit : parseItemsF (f + 1) rest = parseItemsF f rest :=
          ih.2 rest (by simp at h; omega)
        simp only [parseOneF, hit]
    · match ts with
      | [] => simp [parseItemsF]
      | t :: rest =>
        have h1 : parseOneF (f + 1) (t :: rest) = parseOneF f (t :: rest) :=
          ih.1 _ (by simp at h ⊢; omega)
        obtain ⟨f', rfl⟩ : ∃ f', f = f' + 1 := ⟨f - 1, by simp at h; omega⟩
        have hlen : (parseOneF (f' + 1) (t :: rest)).2.length < (t :: rest).length :=
          parseOneF_length_lt f' t rest
        have h2 : parseItemsF (f' + 1 + 1) (parseOneF (f' + 1) (t :: rest)).2 =
            parseItemsF (f' + 1) (parseOneF (f' + 1) (t :: rest)).2 :=
          ih.2 _ (by simp at h hlen ⊢; omega)
        simp only [parseItemsF, h1, h2]

theorem parseOneF_fuel_ge (ts : List (List Char)) (k : Nat) :
    parseOneF (2 * ts.length + 1 + k) ts = parseOneF (2 * ts.length + 1) ts := by
  induction k with
  | zero => rfl
  | succ k ih =>
    have hstep : parseOneF (2 * ts.length + 1 + k + 1) ts = parseOneF (2 * ts.length + 1 + k) ts :=
      (parse_stab (2 * ts.length + 1 + k)).1 ts (by omega)
    calc parseOneF (2 * ts.length + 1 + (k + 1)) ts
        = parseOneF (2 * ts.length + 1 + k) ts := hstep
      _ = parseOneF (2 * ts.length + 1) ts := ih

theorem parseItemsF_no_rpar :
    ∀ (f : Nat) (ts : List (List Char)), [')'] ∉ ts → 2 * ts.length + 1 ≤ f →
      (parseItemsF f ts).2 = [] := by
  intro f
  induction f with
  | zero => exact fun ts h hf => absurd hf (by omega)
  | succ f ih =>
    intro ts h hf
    match ts with
    | [] => simp [parseItemsF]
    | t :: rest =>
      have ht : ¬ t = [')'] := fun he => h (he ▸ List.mem_cons_self t rest)
      obtain ⟨f', rfl⟩ : ∃ f', f = f' + 1 := ⟨f - 1, by simp at hf; omega⟩
      have hsub : (parseOneF (f' + 1) (t :: rest)).2 <:+ t :: rest := (parse_suffix _).1 _
      have hmem : [')'] ∉ (parseOneF (f' + 1) (t :: rest)).2 := fun hm => h (hsub.subset hm)
      have hlen : (parseOneF (f' + 1) (t :: rest)).2.length < (t :: rest).length :=
        parseOneF_length_lt f' t rest
      have := ih _ hmem (by simp at hf hlen ⊢; omega)
      simp only [parseItemsF, if_neg ht, this]

/-! ### Escape-sequence resolution (quoted atoms) -/

theorem pyReplace2_cons_ne (a b r x : Char) (M : List Char) (hx : x ≠ a) :
    pyReplace2 a b r (x :: M) = x :: pyReplace2 a b r M := by
  cases M with
  | nil => simp [pyReplace2]
  | cons y M' => simp [pyReplace2, hx]

theorem pyReplace2_match (a b r : Char) (M : List Char) :
    pyReplace2 a b r (a :: b :: M) = r :: pyReplace2 a b r M := by
  simp [pyReplace2]

theorem escape_head_ne_quote : ∀ s : List Char, (pyEscape s).head? ≠ some '"'
  | [] => by simp [pyEscape]
  | c :: rest => by
    by_cases h : c = '"' ∨ c = '\\'
    · simp [pyEscape, h]
    · have hc : ¬ c = '"' := fun he => h (Or.inl he)
      have hb : ¬ c = '\\' := fun he => h (Or.inr he)
      simp [pyEscape, h, hc, hb]

theorem pyReplace2_r1_bslash (E : List Char) (hE : E.head? ≠ some '"') :
    pyReplace2 '\\' '"' '"' ('\\' :: '\\' :: E) = '\\' :: '\\' :: pyReplace2 '\\' '"' '"' E := by
  have h1 : pyReplace2 '\\' '"' '"' ('\\' :: '\\' :: E) =
      '\\' :: pyReplace2 '\\' '"' '"' ('\\' :: E) := by
    simp [pyReplace2]
  rw [h1]
  congr 1
  cases E with
  | nil => simp [pyReplace2]
  | cons e E' =>
    have he : ¬ e = '"' := by simpa using hE
    simp [pyReplace2, he]

theorem unescape_escape : ∀ s : List Char,
    pyReplace2 '\\' '\\' '\\' (pyReplace2 '\\' '"' '"' (pyEscape s)) = s := by
  intro s
  induction s with
  | nil => simp [pyEscape, pyReplace2]
  | cons c rest ih =>
    by_cases hq : c = '"'
    · subst hq
      have he : pyEscape ('"' :: rest) = '\\' :: '"' :: pyEscape rest := by
        simp [pyEscape]
      rw [he, pyReplace2_match, pyReplace2_cons_ne _ _ _ _ _ (by decide), ih]
    · by_cases hb : c = '\\'
      · subst hb
        have he : pyEscape ('\\' :: rest) = '\\' :: '\\' :: pyEscape rest := by
          simp [pyEscape]
        rw [he, pyReplace2_r1_bslash _ (escape_head_ne_quote rest), pyReplace2_match, ih]
      · have he : pyEscape (c :: rest) = c :: pyEscape rest := by
          simp [pyEscape, hq, hb]
        rw [he, pyReplace2_cons_ne _ _ _ _ _ hb, pyReplace2_cons_ne _ _ _ _ _ hb, ih]

theorem unquote_escaped (s : List Char) :
    unquote ('"' :: (pyEscape s ++ ['"'])) = String.mk s := by
  have h2 : ('"' :: (pyEscape s ++ ['"'])).getLast? = some '"' := by
    rw [show '"' :: (pyEscape s ++ ['"']) = ('"' :: pyEscape s) ++ ['"'] from by simp,
      List.getLast?_append_cons]
    rfl
  have hmid : (('"' :: (pyEscape s ++ ['"'])).drop 1).dropLast = pyEscape s := by
    simp [List.dropLast_concat]
  unfold unquote
  rw [if_pos ⟨rfl, h2⟩, hmid]
  exact congrArg String.mk (unescape_escape s)

/-! ### find_elements as a filtered pre-order traversal -/

theorem headMatches_eq_decide (name : String) (xs : List SExpr) :
    headMatches name xs = decide (xs.head? = some (.atom name)) := by
  match xs with
  | [] => simp [headMatches]
  | .atom a :: rest => by_cases h : a = name <;> simp [headMatches, h]
  | .list ys :: rest => simp [headMatches]

mutual
theorem findElementsRec_eq_filter (name : String) : ∀ t : SExpr,
    findElementsRec name t =
      (preorderLists t).filter (fun xs => decide (xs.head? = some (.atom name)))
  | .atom s => by simp [findElementsRec, preorderLists]
  | .list xs => by
    rw [show findElementsRec name (.list xs) =
        (if headMatches name xs then [xs] else []) ++ findElementsList name xs from rfl]
    rw [show preorderLists (.list xs) = xs :: preorderListsAux xs from rfl]
    rw [List.filter_cons, findElementsList_eq_filter name xs, headMatches_eq_decide]
    by_cases h : xs.head? = some (SExpr.atom name) <;> simp [h]

theorem findElementsList_eq_filter (name : String) : ∀ xs : List SExpr,
    findElementsList name xs =
      (preorderListsAux xs).filter (fun ys => decide (ys.head? = some (.atom name)))
  | [] => by simp [findElementsList, preorderListsAux]
  | x :: xs => by
    rw [show preorderListsAux (x :: xs) =
        (match x with
         | .list _ => preorderLists x
         | .atom _ => []) ++ preorderListsAux xs from rfl]
    rw [List.filter_append, ← findElementsList_eq_filter name xs]
    match x with
    | .atom s => simp [findElementsList]
    | .list ys =>
      rw [show findElementsList name (.list ys :: xs) =
          findElementsRec name (.list ys) ++ findElementsList name xs from rfl]
      rw [findElementsRec_eq_filter name (.list ys)]
end

/-! ### Parsing a complete expression consumes exactly its tokens -/

theorem completeExpr_head {ts : List (List Char)} {e : SExpr} (h : CompleteExpr ts e) :
    ∃ t ts', ts = t :: ts' ∧ t ≠ [')'] := by
  cases h with
  | atom t h1 h2 => exact ⟨t, [], rfl, h2⟩
  | list segs hall => exact ⟨['('], _, rfl, by decide⟩

theorem completeItems_parse :
    ∀ (segs : List (List (List Char) × SExpr)),
      (∀ p ∈ segs, CompleteExpr p.1 p.2) →
      (∀ p ∈ segs, ∀ (rest : List (List Char)) (f : Nat),
        2 * (p.1 ++ rest).length + 1 ≤ f → parseOneF f (p.1 ++ rest) = (p.2, rest)) →
      ∀ (rest : List (List Char)) (g : Nat),
        2 * ((segs.map Prod.fst).flatten ++ [')'] :: rest).length + 2 ≤ g →
        parseItemsF g ((segs.map Prod.fst).flatten ++ [')'] :: rest) =
          (segs.map Prod.snd, rest) := by
  intro segs
  induction segs with
  | nil =>
    intro _ _ rest g hg
    obtain ⟨g', rfl⟩ : ∃ g', g = g' + 1 := ⟨g - 1, by omega⟩
    simp [parseItemsF]
  | cons p segs' ihsegs =>
    intro hall hIH rest g hg
    obtain ⟨g', rfl⟩ : ∃ g', g = g' + 1 := ⟨g - 1, by omega⟩
    obtain ⟨t, ts', hts, htne⟩ := completeExpr_head (hall p (List.mem_cons_self p segs'))
    have hdecomp : ((p :: segs').map Prod.fst).flatten ++ [')'] :: rest =
        t :: (ts' ++ ((segs'.map Prod.fst).flatten ++ [')'] :: rest)) := by
      simp [hts]
    have hlen1 : p.1.length = ts'.length + 1 := by rw [hts]; simp
    have hone : parseOneF g' (p.1 ++ ((segs'.map Prod.fst).flatten ++ [')'] :: rest)) =
        (p.2, (segs'.map Prod.fst).flatten ++ [')'] :: rest) := by
      apply hIH p (List.mem_cons_self p segs')
      simp only [List.length_append, List.length_cons, List.length_map, List.length_flatten] at hg ⊢
      simp [hts] at hg ⊢
      omega
    have hitems : parseItemsF g' ((segs'.map Prod.fst).flatten ++ [')'] :: rest) =
        (segs'.map Prod.snd, rest) := by
      apply ihsegs (fun q hq => hall q (List.mem_cons_of_mem p hq))
        (fun q hq => hIH q (List.mem_cons_of_mem p hq))
      simp only [List.length_append, List.length_cons, List.length_map, List.length_flatten] at hg ⊢
      simp [hts] at hg ⊢
      omega
    rw [hdecomp]
    have hone' : parseOneF g' (t :: (ts' ++ ((segs'.map Prod.fst).flatten ++ [')'] :: rest))) =
        (p.2, (segs'.map Prod.fst).flatten ++ [')'] :: rest) := by
      rw [← List.cons_append, ← hts]; exact hone
    simp only [parseItemsF, if_neg htne, hone', hitems]
    simp

theorem completeExpr_parse {ts : List (List Char)} {e : SExpr} (h : CompleteExpr ts e) :
    ∀ (rest : List (List Char)) (f : Nat), 2 * (ts ++ rest).length + 1 ≤ f →
      parseOneF f (ts ++ rest) = (e, rest) := by
  induction h with
  | atom t h1 h2 =>
    intro rest f hf
    obtain ⟨f', rfl⟩ : ∃ f', f = f' + 1 := ⟨f - 1, by simp at hf; omega⟩
    simp [parseOneF, h1, h2]
  | list segs hall ih =>
    intro rest f hf
    obtain ⟨f', rfl⟩ : ∃ f', f = f' + 1 := ⟨f - 1, by simp at hf; omega⟩
    have hd : (['('] :: (segs.map Prod.fst).flatten ++ [[')']]) ++ rest =
        ['('] :: ((segs.map Prod.fst).flatten ++ [')'] :: rest) := by simp
    rw [hd]
    have hitems : parseItemsF f' ((segs.map Prod.fst).flatten ++ [')'] :: rest) =
        (segs.map Prod.snd, rest) := by
      apply completeItems_parse segs hall ih
      simp only [List.length_append, List.length_cons] at hf ⊢
      simp at hf ⊢
      omega
    simp only [parseOneF, hitems]
    simp

/-! ### Hierarchy traversal: visited-set growth and fuel stability -/

theorem processSheet_visited_mono
    (recur : MyPath → Collector → Finset MyPath → Collector × Finset MyPath)
    (hrec : ∀ p c v, v ⊆ (recur p c v).2)
    (fs : FS) (sp : MyPath) (st : Collector × Finset MyPath) (sheet : List SExpr) :
    st.2 ⊆ (processSheet recur fs sp st sheet).2 := by
  rcases hgp : get_property sheet "Sheetfile" with _ | sf
  · simp [processSheet, hgp]
  · by_cases hsf : sf = ""
    · simp [processSheet, hgp, hsf]
    · by_cases hex : pathExists fs (sp.parent.join (MyPath.ofString sf)) = true
      · simpa [processSheet, hgp, hsf, hex] using hrec _ _ st.2
      · simp [processSheet, hgp, hsf, hex]

theorem foldl_processSheet_visited_mono
    (recur : MyPath → Collector → Finset MyPath → Collector × Finset MyPath)
    (hrec : ∀ p c v, v ⊆ (recur p c v).2) (fs : FS) (sp : MyPath) :
    ∀ (sheets : List (List SExpr)) (st : Collector × Finset MyPath),
      st.2 ⊆ (sheets.foldl (processSheet recur fs sp) st).2 := by
  intro sheets
  induction sheets with
  | nil => intro st; exact Finset.Subset.refl _
  | cons sheet rest ih =>
    intro st
    exact (processSheet_visited_mono recur hrec fs sp st sheet).trans (ih _)

theorem parseSheetsF_visited_mono :
    ∀ (fuel : Nat) (fs : FS) (p : MyPath) (c : Collector) (v : Finset MyPath),
      v ⊆ (parseSchematicSheetsF fuel fs p c v).2 := by
  intro fuel
  induction fuel with
  | zero => intro fs p c v; exact Finset.Subset.refl _
  | succ fuel ih =>
    intro fs p c v
    by_cases hv : p.resolve ∈ v
    · simp [parseSchematicSheetsF, hv]
    · by_cases hex : pathExists fs p = true
      · have hf := foldl_processSheet_visited_mono (parseSchematicSheetsF fuel fs)
          (fun p c v => ih fs p c v) fs p
          (find_elements (parse_kicad (readText fs p)) "sheet") (c, insert p.resolve v)
        simp only [parseSchematicSheetsF, hv, if_neg, hex, if_pos, if_true, if_false]
        exact (Finset.subset_insert _ _).trans (by simpa using hf)
      · simp only [parseSchematicSheetsF, hv, hex]
        simp

theorem pathExists_mem_fsDom {fs : FS} {p : MyPath} (h : pathExists fs p = true) :
    p.resolve ∈ fsDom fs := by
  unfold pathExists lookupFS at h
  have h2 : (fs.find? (fun e => e.1 == p.resolve)).isSome := by
    rcases hf : fs.find? (fun e => e.1 == p.resolve) with _ | e
    · rw [hf] at h; simp at h
    · rw [hf]; rfl
  rcases List.find?_isSome.mp h2 with ⟨e, hmem, hpred⟩
  have : e.1 = p.resolve := by simpa using hpred
  unfold fsDom
  rw [List.mem_toFinset]
  exact this ▸ List.mem_map_of_mem Prod.fst hmem

theorem processSheet_congr
    (r1 r2 : MyPath → Collector → Finset MyPath → Collector × Finset MyPath)
    (fs : FS) (sp : MyPath) (st : Collector × Finset MyPath) (sheet : List SExpr)
    (hr : ∀ q c, r1 q c st.2 = r2 q c st.2) :
    processSheet r1 fs sp st sheet = processSheet r2 fs sp st sheet := by
  rcases hgp : get_property sheet "Sheetfile" with _ | sf
  · simp [processSheet, hgp]
  · by_cases hsf : sf = ""
    · simp [processSheet, hgp, hsf]
    · by_cases hex : pathExists fs (sp.parent.join (MyPath.ofString sf)) = true
      · simp [processSheet, hgp, hsf, hex, hr]
      · simp [processSheet, hgp, hsf, hex]

theorem foldl_processSheet_congr (fuel : Nat) (fs : FS) (sp : MyPath)
    (hstab : ∀ q c v, (fsDom fs \ v).card + 1 ≤ fuel →
      parseSchematicSheetsF (fuel + 1) fs q c v = parseSchematicSheetsF fuel fs q c v)
    (v0 : Finset MyPath) (hcard : (fsDom fs \ v0).card + 1 ≤ fuel) :
    ∀ (sheets : List (List SExpr)) (st : Collector × Finset MyPath), v0 ⊆ st.2 →
      sheets.foldl (processSheet (parseSchematicSheetsF (fuel + 1) fs) fs sp) st =
      sheets.foldl (processSheet (parseSchematicSheetsF fuel fs) fs sp) st := by
  intro sheets
  induction sheets with
  | nil => intro st _; rfl
  | cons sheet rest ih =>
    intro st hsub
    have hstcard : (fsDom fs \ st.2).card + 1 ≤ fuel := by
      have h1 : fsDom fs \ st.2 ⊆ fsDom fs \ v0 :=
        Finset.sdiff_subset_sdiff (Finset.Subset.refl _) hsub
      have h2 := Finset.card_le_card h1
      omega
    have hstep : processSheet (parseSchematicSheetsF (fuel + 1) fs) fs sp st sheet =
        processSheet (parseSchematicSheetsF fuel fs) fs sp st sheet :=
      processSheet_congr _ _ fs sp st sheet (fun q c => hstab q c st.2 hstcard)
    rw [List.foldl_cons, List.foldl_cons, hstep]
    exact ih _ (hsub.trans (processSheet_visited_mono _
      (fun p c v => parseSheetsF_visited_mono fuel fs p c v) fs sp st sheet))

theorem parseSheetsF_stab :
    ∀ (fuel : Nat) (fs : FS) (p : MyPath) (c : Collector) (v : Finset MyPath),
      (fsDom fs \ v).card + 1 ≤ fuel →
      parseSchematicSheetsF (fuel + 1) fs p c v = parseSchematicSheetsF fuel fs p c v := by
  intro fuel
  induction fuel with
  | zero => exact fun fs p c v h => absurd h (by omega)
  | succ fuel ih =>
    intro fs p c v h
    by_cases hv : p.resolve ∈ v
    · simp [parseSchematicSheetsF, hv]
    · by_cases hex : pathExists fs p = true
      · have hmem : p.resolve ∈ fsDom fs \ v :=
          Finset.mem_sdiff.mpr ⟨pathExists_mem_fsDom hex, hv⟩
        have hpos : 1 ≤ (fsDom fs \ v).card := Finset.card_pos.mpr ⟨_, hmem⟩
        have hcard : (fsDom fs \ insert p.resolve v).card + 1 ≤ fuel := by
          have h1 : fsDom fs \ insert p.resolve v = (fsDom fs \ v).erase p.resolve := by
            ext x
            simp only [Finset.mem_sdiff, Finset.mem_erase, Finset.mem_insert]
            tauto
          rw [h1, Finset.card_erase_of_mem hmem]
          omega
        have hfold := foldl_processSheet_congr fuel fs p (fun q c v => ih fs q c v)
          (insert p.resolve v) hcard
          (find_elements (parse_kicad (readText fs p)) "sheet")
          (c, insert p.resolve v) (Finset.Subset.refl _)
        simp only [parseSchematicSheetsF, hv, hex, if_neg, if_pos, if_false, if_true]
        exact hfold
      · simp [parseSchematicSheetsF, hv, hex]

theorem parseSheetsF_fuel_ge (fs : FS) (p : MyPath) (c : Collector) (v : Finset MyPath)
    (k : Nat) :
    parseSchematicSheetsF ((fsDom fs \ v).card + 1 + k) fs p c v =
    parseSchematicSheetsF ((fsDom fs \ v).card + 1) fs p c v := by
  induction k with
  | zero => rfl
  | succ k ih =>
    have hstep := parseSheetsF_stab ((fsDom fs \ v).card + 1 + k) fs p c v (by omega)
    calc parseSchematicSheetsF ((fsDom fs \ v).card + 1 + (k + 1)) fs p c v
        = parseSchematicSheetsF ((fsDom fs \ v).card + 1 + k) fs p c v := hstep
      _ = parseSchematicSheetsF ((fsDom fs \ v).card + 1) fs p c v := ih

/-! ### Canonical paths: resolve normalises, and is the identity on
canonical paths -/

theorem mem_of_getLast?_eq {α : Type} {l : List α} {a : α} (h : l.getLast? = some a) :
    a ∈ l := by
  induction l with
  | nil => simp at h
  | cons x xs ih =>
    cases xs with
    | nil => simp at h; simp [h]
    | cons y ys => rw [List.getLast?_cons_cons] at h; exact List.mem_cons_of_mem x (ih h)

theorem normCompsAux_good : ∀ (cs acc : List String),
    (∀ c ∈ cs, '/' ∉ c.toList) → (∀ c ∈ acc, goodComp c) →
    ∀ c ∈ normCompsAux acc cs, goodComp c := by
  intro cs
  induction cs with
  | nil => intro acc _ hacc; simpa [normCompsAux] using hacc
  | cons c rest ih =>
    intro acc hcs hacc
    have hcs' : ∀ x ∈ rest, '/' ∉ x.toList := fun x hx => hcs x (List.mem_cons_of_mem c hx)
    by_cases h1 : c = "" ∨ c = "."
    · simpa only [normCompsAux, if_pos h1] using ih acc hcs' hacc
    · by_cases h2 : c = ".."
      · simp only [normCompsAux, if_neg h1, if_pos h2]
        exact ih acc.dropLast hcs' (fun x hx => hacc x (List.dropLast_subset acc hx))
      · simp only [normCompsAux, if_neg h1, if_neg h2]
        apply ih (acc ++ [c]) hcs'
        intro x hx
        rcases List.mem_append.mp hx with hx | hx
        · exact hacc x hx
        · have hxc : x = c := by simpa using hx
          subst hxc
          exact ⟨fun he => h1 (Or.inl he), fun he => h1 (Or.inr he), h2,
            hcs x (List.mem_cons_self _ _)⟩

theorem normCompsAux_id : ∀ (cs acc : List String),
    (∀ c ∈ cs, goodComp c) → normCompsAux acc cs = acc ++ cs := by
  intro cs
  induction cs with
  | nil => intro acc _; simp [normCompsAux]
  | cons c rest ih =>
    intro acc hcs
    obtain ⟨h0, h1, h2, _⟩ := hcs c (List.mem_cons_self _ _)
    simp only [normCompsAux, if_neg (by tauto : ¬ (c = "" ∨ c = ".")), if_neg h2]
    rw [ih (acc ++ [c]) (fun x hx => hcs x (List.mem_cons_of_mem c hx))]
    simp

theorem resolve_abs (p : MyPath) : p.resolve.abs = p.abs := rfl

theorem resolve_isCanon {p : MyPath} (habs : p.abs = true) (hsf : SlashFree p) :
    IsCanon p.resolve :=
  ⟨habs, normCompsAux_good p.comps [] hsf (by simp)⟩

theorem isCanon_resolve {p : MyPath} (h : IsCanon p) : p.resolve = p := by
  obtain ⟨habs, hgood⟩ := h
  cases p with
  | mk abs comps =>
    unfold MyPath.resolve normComps
    simpa using normCompsAux_id comps [] hgood

theorem isCanon_slashFree {p : MyPath} (h : IsCanon p) : SlashFree p :=
  fun c hc => (h.2 c hc).2.2.2

theorem splitSlash_no_slash : ∀ (l : List Char), ∀ g ∈ splitSlash l, '/' ∉ g := by
  intro l
  induction l with
  | nil => intro g hg; simp [splitSlash] at hg; simp [hg]
  | cons c rest ih =>
    intro g hg
    by_cases hc : c = '/'
    · rw [show splitSlash (c :: rest) = [] :: splitSlash rest from by
        simp [splitSlash, hc]] at hg
      rcases List.mem_cons.mp hg with h | h
      · simp [h]
      · exact ih g h
    · rw [show splitSlash (c :: rest) =
          (match splitSlash rest with
           | [] => [[c]]
           | g :: gs => (c :: g) :: gs) from by simp [splitSlash, hc]] at hg
      rcases hsr : splitSlash rest with _ | ⟨g0, gs⟩
      · rw [hsr] at hg
        have : g = [c] := by simpa using hg
        subst this
        intro hmem
        have h2 : '/' = c := by simpa using hmem
        exact hc h2.symm
      · rw [hsr] at hg
        rcases List.mem_cons.mp hg with h | h
        · subst h
          intro hmem
          rcases List.mem_cons.mp hmem with h | h
          · exact hc h.symm
          · exact ih g0 (hsr ▸ List.mem_cons_self g0 gs) h
        · exact ih g (hsr ▸ List.mem_cons_of_mem g0 h)

theorem ofString_slashFree (s : String) : SlashFree (MyPath.ofString s) := by
  intro c hc
  unfold MyPath.ofString at hc
  simp only [List.mem_filter, List.mem_map] at hc
  obtain ⟨⟨g, hg, rfl⟩, _⟩ := hc
  exact splitSlash_no_slash _ g hg

theorem join_slashFree {p q : MyPath} (hp : SlashFree p) (hq : SlashFree q) :
    SlashFree (p.join q) := by
  unfold MyPath.join
  by_cases h : q.abs
  · simpa [h] using hq
  · simp only [h, if_neg, if_false]
    intro c hc
    rcases List.mem_append.mp (by simpa using hc) with h | h
    · exact hp c h
    · exact hq c h

theorem join_abs {p q : MyPath} (hp : p.abs = true) : (p.join q).abs = true := by
  unfold MyPath.join
  by_cases h : q.abs
  · simp [h]
  · simpa [h] using hp

theorem parent_slashFree {p : MyPath} (hp : SlashFree p) : SlashFree p.parent :=
  fun c hc => hp c (List.dropLast_subset p.comps hc)

theorem parent_isCanon {p : MyPath} (h : IsCanon p) : IsCanon p.parent :=
  ⟨h.1, fun c hc => h.2 c (List.dropLast_subset p.comps hc)⟩

theorem pyStem_cases (n : String) :
    pyStem n = n ∨ ∃ i, pyStem n = String.mk (n.toList.take i) := by
  unfold pyStem
  rcases h : n.toList.reverse.findIdx? (fun c => c = '.') with _ | k
  · simp only [h]
    exact Or.inl trivial
  · simp only [h]
    split
    · right; exact ⟨_, rfl⟩
    · left; rfl

theorem pyStem_subset (n : String) : ∀ c ∈ (pyStem n).toList, c ∈ n.toList := by
  intro c hc
  rcases pyStem_cases n with h | ⟨i, h⟩
  · rwa [h] at hc
  · rw [h] at hc
    exact List.take_subset i n.toList (by simpa using hc)

theorem splitSlash_of_no_slash : ∀ (l : List Char), '/' ∉ l → splitSlash l = [l] := by
  intro l
  induction l with
  | nil => intro _; rfl
  | cons c rest ih =>
    intro h
    have hc : ¬ c = '/' := fun he => h (he ▸ List.mem_cons_self c rest)
    have hrest : '/' ∉ rest := fun hm => h (List.mem_cons_of_mem c hm)
    rw [show splitSlash (c :: rest) =
        (match splitSlash rest with
         | [] => [[c]]
         | g :: gs => (c :: g) :: gs) from by simp [splitSlash, hc]]
    rw [ih hrest]

theorem ofString_of_plain (s : String) (_hne : s.toList ≠ []) (hsl : '/' ∉ s.toList)
    (h0 : s ≠ "") (h1 : s ≠ ".") :
    MyPath.ofString s = ⟨false, [s]⟩ := by
  unfold MyPath.ofString
  have hhead : ¬ s.toList.head? = some '/' := by
    rcases hl : s.toList with _ | ⟨c, rest⟩
    · simp
    · have : c ≠ '/' := fun he => hsl (hl ▸ he ▸ List.mem_cons_self c rest)
      simpa [hl] using this
  rw [splitSlash_of_no_slash s.toList hsl]
  have hmk : String.mk s.toList = s := rfl
  simp only [List.map_cons, List.map_nil, hmk]
  congr 1
  · simpa using hhead
  · rw [List.filter_cons]
    simp [h0, h1]

theorem sibling_isCanon {pcb : MyPath} (h : IsCanon pcb) (ext : String)
    (hlen : 3 ≤ ext.length) (hsl : '/' ∉ ext.toList) :
    IsCanon (pcb.parent.join (MyPath.ofString (pyStem pcb.name ++ ext))) := by
  set s := pyStem pcb.name ++ ext with hs
  have hname_sl : '/' ∉ pcb.name.toList := by
    unfold MyPath.name
    rcases hl : pcb.comps.getLast? with _ | a
    · simp
    · have ha : a ∈ pcb.comps := mem_of_getLast?_eq hl
      simpa using (h.2 a ha).2.2.2
  have hstem_sl : '/' ∉ (pyStem pcb.name).toList :=
    fun hm => hname_sl (pyStem_subset pcb.name '/' hm)
  have hs_sl : '/' ∉ s.toList := by
    rw [hs, show (pyStem pcb.name ++ ext).toList = (pyStem pcb.name).toList ++ ext.toList
      from by simp [String.toList]]
    intro hm
    rcases List.mem_append.mp hm with hm | hm
    · exact hstem_sl hm
    · exact hsl hm
  have hs_len : 3 ≤ s.length := by
    rw [hs, String.length_append]
    omega
  have hs0 : s ≠ "" := fun he => by rw [he] at hs_len; exact absurd hs_len (by decide)
  have hs1 : s ≠ "." := fun he => by rw [he] at hs_len; exact absurd hs_len (by decide)
  have hs2 : s ≠ ".." := fun he => by rw [he] at hs_len; exact absurd hs_len (by decide)
  have hs_ne : s.toList ≠ [] := by
    intro he
    apply hs0
    have hmk : s = String.mk s.toList := rfl
    rw [hmk, he]
  rw [ofString_of_plain s hs_ne hs_sl hs0 hs1]
  have hjoin : pcb.parent.join ⟨false, [s]⟩ = ⟨pcb.abs, pcb.comps.dropLast ++ [s]⟩ := by
    unfold MyPath.join MyPath.parent
    simp
  rw [hjoin]
  refine ⟨h.1, fun c hc => ?_⟩
  rcases List.mem_append.mp hc with hm | hm
  · exact h.2 c (List.dropLast_subset pcb.comps hm)
  · have : c = s := by simpa using hm
    subst this
    exact ⟨hs0, hs1, hs2, hs_sl⟩

/-! ### Canonicity invariants of the three collection phases -/

theorem collect_core_canon {fs : FS} {pcb : MyPath} {c : Collector} (hpcb : IsCanon pcb)
    (hc : ∀ q ∈ c.collected_files, IsCanon q) :
    ∀ q ∈ (collect_core_files fs pcb c).collected_files, IsCanon q := by
  have hpro : IsCanon (pcb.parent.join (MyPath.ofString (pyStem pcb.name ++ ".kicad_pro"))) :=
    sibling_isCanon hpcb ".kicad_pro" (by decide) (by decide)
  have hsch : IsCanon (pcb.parent.join (MyPath.ofString (pyStem pcb.name ++ ".kicad_sch"))) :=
    sibling_isCanon hpcb ".kicad_sch" (by decide) (by decide)
  intro q hq
  by_cases h1 : pathExists fs pcb = true <;>
    by_cases h2 : pathExists fs
      (pcb.parent.join (MyPath.ofString (pyStem pcb.name ++ ".kicad_pro"))) = true <;>
      by_cases h3 : pathExists fs
        (pcb.parent.join (MyPath.ofString (pyStem pcb.name ++ ".kicad_sch"))) = true <;>
        simp [collect_core_files, h1, h2, h3, Finset.mem_insert] at hq <;>
        (repeat' rcases hq with rfl | hq) <;>
        first
          | exact hpcb
          | exact hpro
          | exact hsch
          | exact hc q hq

theorem processSheet_canon
    (recur : MyPath → Collector → Finset MyPath → Collector × Finset MyPath)
    (hrec : ∀ p c v, p.abs = true → SlashFree p → (∀ q ∈ c.collected_files, IsCanon q) →
      ∀ q ∈ (recur p c v).1.collected_files, IsCanon q)
    (fs : FS) (sp : MyPath) (st : Collector × Finset MyPath) (sheet : List SExpr)
    (hsp_abs : sp.abs = true) (hsp_sf : SlashFree sp)
    (hst : ∀ q ∈ st.1.collected_files, IsCanon q) :
    ∀ q ∈ (processSheet recur fs sp st sheet).1.collected_files, IsCanon q := by
  rcases hgp : get_property sheet "Sheetfile" with _ | sf
  · simpa [processSheet, hgp] using hst
  · by_cases hsf : sf = ""
    · simpa [processSheet, hgp, hsf] using hst
    · have habs : (sp.parent.join (MyPath.ofString sf)).abs = true := join_abs hsp_abs
      have hsfree : SlashFree (sp.parent.join (MyPath.ofString sf)) :=
        join_slashFree (parent_slashFree hsp_sf) (ofString_slashFree sf)
      by_cases hex : pathExists fs (sp.parent.join (MyPath.ofString sf)) = true
      · simp only [processSheet, hgp, hsf, hex, if_neg, if_pos, if_false, if_true]
        apply hrec _ _ _ habs hsfree
        intro q hq
        rcases Finset.mem_insert.mp hq with rfl | hq
        · exact resolve_isCanon habs hsfree
        · exact hst q hq
      · simpa [processSheet, hgp, hsf, hex] using hst

theorem foldl_processSheet_canon
    (recur : MyPath → Collector → Finset MyPath → Collector × Finset MyPath)
    (hrec : ∀ p c v, p.abs = true → SlashFree p → (∀ q ∈ c.collected_files, IsCanon q) →
      ∀ q ∈ (recur p c v).1.collected_files, IsCanon q)
    (fs : FS) (sp : MyPath) (hsp_abs : sp.abs = true) (hsp_sf : SlashFree sp) :
    ∀ (sheets : List (List SExpr)) (st : Collector × Finset MyPath),
      (∀ q ∈ st.1.collected_files, IsCanon q) →
      ∀ q ∈ (sheets.foldl (processSheet recur fs sp) st).1.collected_files, IsCanon q := by
  intro sheets
  induction sheets with
  | nil => intro st hst; exact hst
  | cons sheet rest ih =>
    intro st hst
    exact ih _ (processSheet_canon recur hrec fs sp st sheet hsp_abs hsp_sf hst)

theorem parseSheetsF_canon :
    ∀ (fuel : Nat) (fs : FS) (p : MyPath) (c : Collector) (v : Finset MyPath),
      p.abs = true → SlashFree p → (∀ q ∈ c.collected_files, IsCanon q) →
      ∀ q ∈ (parseSchematicSheetsF fuel fs p c v).1.collected_files, IsCanon q := by
  intro fuel
  induction fuel with
  | zero => intro fs p c v _ _ hc; exact hc
  | succ fuel ih =>
    intro fs p c v habs hsf hc
    by_cases hv : p.resolve ∈ v
    · simpa [parseSchematicSheetsF, hv] using hc
    · by_cases hex : pathExists fs p = true
      · simp only [parseSchematicSheetsF, hv, hex, if_neg, if_pos, if_false, if_true]
        exact foldl_processSheet_canon _ (fun p c v ha hs hcc => ih fs p c v ha hs hcc)
          fs p habs hsf _ _ hc
      · simpa [parseSchematicSheetsF, hv, hex] using hc

theorem branch_abs_slashFree (dir P : MyPath)
    (hdab : dir.abs = true) (hdsf : SlashFree dir) (hP : SlashFree P) :
    (if P.abs = false then dir.join P else P).abs = true ∧
      SlashFree (if P.abs = false then dir.join P else P) := by
  by_cases habs : P.abs = false
  · rw [if_pos habs]
    exact ⟨join_abs hdab, join_slashFree hdsf hP⟩
  · rw [if_neg habs]
    exact ⟨by simpa using habs, hP⟩

theorem resolve_lib_path_abs_slashFree {dir : MyPath} {uri : String} {lp : MyPath}
    (hdab : dir.abs = true) (hdsf : SlashFree dir)
    (h : resolve_lib_path dir uri = some lp) : lp.abs = true ∧ SlashFree lp := by
  unfold resolve_lib_path at h
  by_cases h1 : pyStartsWith uri "$\x7bKICAD" = true
  · simp [h1] at h
  · simp only [h1, if_neg, if_false, Bool.false_eq_true] at h
    have h2 := Option.some.inj (by simpa using h)
    rw [← h2]
    exact branch_abs_slashFree dir _ hdab hdsf (ofString_slashFree _)

theorem processLib_canon {fs : FS} {dir : MyPath} {c : Collector} {lib : List SExpr}
    (hdab : dir.abs = true) (hdsf : SlashFree dir)
    (hc : ∀ q ∈ c.collected_files, IsCanon q) :
    ∀ q ∈ (processLib fs dir c lib).collected_files, IsCanon q := by
  rcases hgv : get_element_value lib "uri" with _ | uri
  · simpa [processLib, hgv] using hc
  · by_cases hu : uri = ""
    · simpa [processLib, hgv, hu] using hc
    · rcases hres : resolve_lib_path dir uri with _ | lp
      · simpa [processLib, hgv, hu, hres] using hc
      · obtain ⟨habs, hsf⟩ := resolve_lib_path_abs_slashFree hdab hdsf hres
        by_cases hex : pathExists fs lp = true
        · by_cases hxt : is_external dir lp = true
          · simpa [processLib, hgv, hu, hres, hex, hxt] using hc
          · simp only [processLib, hgv, hu, hres, hex, hxt, if_neg, if_pos, if_false,
              if_true, Bool.false_eq_true]
            intro q hq
            rcases Finset.mem_insert.mp (by simpa using hq) with rfl | hq
            · exact resolve_isCanon habs hsf
            · exact hc q hq
        · simpa [processLib, hgv, hu, hres, hex] using hc

theorem foldl_processLib_canon {fs : FS} {dir : MyPath}
    (hdab : dir.abs = true) (hdsf : SlashFree dir) :
    ∀ (libs : List (List SExpr)) (c : Collector),
      (∀ q ∈ c.collected_files, IsCanon q) →
      ∀ q ∈ (libs.foldl (processLib fs dir) c).collected_files, IsCanon q := by
  intro libs
  induction libs with
  | nil => intro c hc; exact hc
  | cons lib rest ih =>
    intro c hc
    exact ih _ (processLib_canon hdab hdsf hc)

theorem collect_syms_canon {fs : FS} {pcb : MyPath} {c : Collector} (hpcb : IsCanon pcb)
    (hc : ∀ q ∈ c.collected_files, IsCanon q) :
    ∀ q ∈ (collect_symbol_libraries fs pcb c).collected_files, IsCanon q := by
  unfold collect_symbol_libraries
  by_cases hex : pathExists fs (pcb.parent.join (MyPath.ofString "sym-lib-table")) = true
  · simp only [hex, if_pos, if_true]
    exact foldl_processLib_canon (parent_isCanon hpcb).1
      (parent_slashFree (isCanon_slashFree hpcb)) _ _ hc
  · simpa [hex] using hc

theorem collect_hierarchy_canon {fs : FS} {pcb : MyPath} {c : Collector} (hpcb : IsCanon pcb)
    (hc : ∀ q ∈ c.collected_files, IsCanon q) :
    ∀ q ∈ (collect_schematic_hierarchy fs pcb c).collected_files, IsCanon q := by
  unfold collect_schematic_hierarchy
  have hm : IsCanon (pcb.parent.join (MyPath.ofString (pyStem pcb.name ++ ".kicad_sch"))) :=
    sibling_isCanon hpcb ".kicad_sch" (by decide) (by decide)
  by_cases hex : pathExists fs
      (pcb.parent.join (MyPath.ofString (pyStem pcb.name ++ ".kicad_sch"))) = true
  · simp only [hex, if_pos, if_true]
    exact parseSheetsF_canon _ fs _ c ∅ hm.1 (isCanon_slashFree hm) hc
  · simpa [hex] using hc

/-! ### External-file map: untouched by phases A and B, and its keys lie
outside the project root -/

theorem collect_core_external_eq (fs : FS) (pcb : MyPath) (c : Collector) :
    (collect_core_files fs pcb c).external_files = c.external_files := by
  by_cases h1 : pathExists fs pcb = true <;>
    by_cases h2 : pathExists fs
      (pcb.parent.join (MyPath.ofString (pyStem pcb.name ++ ".kicad_pro"))) = true <;>
      by_cases h3 : pathExists fs
        (pcb.parent.join (MyPath.ofString (pyStem pcb.name ++ ".kicad_sch"))) = true <;>
        simp [collect_core_files, h1, h2, h3]

theorem processSheet_external_eq
    (recur : MyPath → Collector → Finset MyPath → Collector × Finset MyPath)
    (hrec : ∀ p c v, (recur p c v).1.external_files = c.external_files)
    (fs : FS) (sp : MyPath) (st : Collector × Finset MyPath) (sheet : List SExpr) :
    (processSheet recur fs sp st sheet).1.external_files = st.1.external_files := by
  rcases hgp : get_property sheet "Sheetfile" with _ | sf
  · simp [processSheet, hgp]
  · by_cases hsf : sf = ""
    · simp [processSheet, hgp, hsf]
    · by_cases hex : pathExists fs (sp.parent.join (MyPath.ofString sf)) = true
      · simp [processSheet, hgp, hsf, hex, hrec]
      · simp [processSheet, hgp, hsf, hex]

theorem parseSheetsF_external_eq :
    ∀ (fuel : Nat) (fs : FS) (p : MyPath) (c : Collector) (v : Finset MyPath),
      (parseSchematicSheetsF fuel fs p c v).1.external_files = c.external_files := by
  intro fuel
  induction fuel with
  | zero => intro fs p c v; rfl
  | succ fuel ih =>
    intro fs p c v
    by_cases hv : p.resolve ∈ v
    · simp [parseSchematicSheetsF, hv]
    · by_cases hex : pathExists fs p = true
      · simp only [parseSchematicSheetsF, hv, hex, if_neg, if_pos, if_false, if_true]
        generalize hsheets : find_elements (parse_kicad (readText fs p)) "sheet" = sheets
        have haux : ∀ (sheets : List (List SExpr)) (st : Collector × Finset MyPath),
            (sheets.foldl (processSheet (parseSchematicSheetsF fuel fs) fs p) st).1.external_files =
              st.1.external_files := by
          intro sheets
          induction sheets with
          | nil => intro st; rfl
          | cons sheet rest ihs =>
            intro st
            rw [List.foldl_cons, ihs]
            exact processSheet_external_eq _ (fun q cc vv => ih fs q cc vv) fs p st sheet
        exact haux sheets _
      · simp [parseSchematicSheetsF, hv, hex]

theorem collect_hierarchy_external_eq (fs : FS) (pcb : MyPath) (c : Collector) :
    (collect_schematic_hierarchy fs pcb c).external_files = c.external_files := by
  unfold collect_schematic_hierarchy
  by_cases hex : pathExists fs
      (pcb.parent.join (MyPath.ofString (pyStem pcb.name ++ ".kicad_sch"))) = true
  · simp only [hex, if_pos, if_true]
    exact parseSheetsF_external_eq _ fs _ c ∅
  · simp [hex]

theorem dictInsert_key {l : List (MyPath × String)} {k : MyPath} {v : String}
    {x : MyPath × String} (h : x ∈ dictInsert l k v) : x.1 = k ∨ ∃ y ∈ l, x.1 = y.1 := by
  unfold dictInsert at h
  split_ifs at h
  · rcases List.mem_map.mp h with ⟨y, hy, hxy⟩
    by_cases hk : y.1 == k
    · rw [if_pos hk] at hxy
      left; rw [← hxy]
    · rw [if_neg hk] at hxy
      right; exact ⟨y, hy, by rw [← hxy]⟩
  · rcases List.mem_append.mp h with h | h
    · right; exact ⟨x, h, rfl⟩
    · left
      have : x = (k, v) := by simpa using h
      rw [this]

theorem is_external_relativeTo {dir lp : MyPath} (hdir : dir.resolve = dir)
    (h : is_external dir lp = true) : lp.resolve.relativeTo dir = none := by
  unfold is_external at h
  rw [hdir] at h
  exact Option.isNone_iff_eq_none.mp h

theorem processLib_external_outside {fs : FS} {dir : MyPath} {c : Collector} {lib : List SExpr}
    (hdir : dir.resolve = dir)
    (hc : ∀ e ∈ c.external_files, MyPath.relativeTo e.1 dir = none) :
    ∀ e ∈ (processLib fs dir c lib).external_files, MyPath.relativeTo e.1 dir = none := by
  rcases hgv : get_element_value lib "uri" with _ | uri
  · simpa [processLib, hgv] using hc
  · by_cases hu : uri = ""
    · simpa [processLib, hgv, hu] using hc
    · rcases hres : resolve_lib_path dir uri with _ | lp
      · simpa [processLib, hgv, hu, hres] using hc
      · by_cases hex : pathExists fs lp = true
        · by_cases hxt : is_external dir lp = true
          · simp only [processLib, hgv, hu, hres, hex, hxt, if_neg, if_pos, if_false, if_true]
            intro e he
            rcases dictInsert_key (by simpa using he) with h | ⟨y, hy, hxy⟩
            · rw [h]
              exact is_external_relativeTo hdir hxt
            · rw [hxy]
              exact hc y hy
          · simpa [processLib, hgv, hu, hres, hex, hxt] using hc
        · simpa [processLib, hgv, hu, hres, hex] using hc

theorem collect_syms_external_outside {fs : FS} {pcb : MyPath} {c : Collector}
    (hpcb : IsCanon pcb)
    (hc : ∀ e ∈ c.external_files, MyPath.relativeTo e.1 pcb.parent = none) :
    ∀ e ∈ (collect_symbol_libraries fs pcb c).external_files,
      MyPath.relativeTo e.1 pcb.parent = none := by
  unfold collect_symbol_libraries
  have hdir : pcb.parent.resolve = pcb.parent := isCanon_resolve (parent_isCanon hpcb)
  by_cases hex : pathExists fs (pcb.parent.join (MyPath.ofString "sym-lib-table")) = true
  · simp only [hex, if_pos, if_true]
    generalize hlibs : find_elements (parse_kicad
      (readText fs (pcb.parent.join (MyPath.ofString "sym-lib-table")))) "lib" = libs
    clear hlibs
    induction libs generalizing c with
    | nil => exact hc
    | cons lib rest ih =>
      intro e he
      exact ih (processLib_external_outside hdir hc) e he
  · simpa [hex] using hc

/-! ### Association-list lookup helpers -/

theorem lookupAssoc_isSome_of_mem {l : List (MyPath × String)} {e : MyPath × String}
    (h : e ∈ l) : ∃ v, lookupAssoc l e.1 = some v := by
  unfold lookupAssoc
  have hs : (l.find? (fun x => x.1 == e.1)).isSome :=
    List.find?_isSome.mpr ⟨e, h, by simp⟩
  rcases hf : l.find? (fun x => x.1 == e.1) with _ | x
  · rw [hf] at hs; simp at hs
  · exact ⟨x.2, by rw [hf]; rfl⟩

theorem lookupAssoc_mem {l : List (MyPath × String)} {p : MyPath} {v : String}
    (h : lookupAssoc l p = some v) : ∃ e ∈ l, e.1 = p := by
  unfold lookupAssoc at h
  rcases hf : l.find? (fun x => x.1 == p) with _ | x
  · rw [hf] at h; simp at h
  · have hmem := List.mem_of_find?_eq_some hf
    have hpred := List.find?_some hf
    exact ⟨x, hmem, by simpa using hpred⟩

/-! ## Claim theorems -/

/-- C3 (counterexample): an unmatched closing parenthesis where a value is
expected is not skipped: `parse_kicad ") a"` yields the empty List node,
not the Atom `"a"` that skipping the parenthesis would produce. -/
theorem C3_counterexample :
    parse_kicad ") a" = .list [] ∧ parse_kicad ") a" ≠ parse_kicad "a" ∧
      parse_kicad "a" = .atom "a" :=
  ⟨by decide, by decide, by decide⟩

/-- C3 (amended): for every input, `parse_kicad` returns a node without any
error: the parse result is stable under any fuel beyond the wrapper's
choice (the recursion terminates); an unmatched closing parenthesis where a
value is expected is consumed and treated as an empty List (rather than
skipped); an unmatched opening parenthesis consumes all remaining tokens
and yields the partial list; exhausted input yields a partial result
(the empty list) rather than a failure. -/
theorem C3_parser_total_amended :
    (∀ (toks : List (List Char)) (k : Nat),
        parseOneF (2 * toks.length + 1 + k) toks = parseOneF (2 * toks.length + 1) toks) ∧
    (∀ (rest : List (List Char)) (f : Nat), 1 ≤ f →
        parseOneF f ([')'] :: rest) = (.list [], rest)) ∧
    (∀ (rest : List (List Char)) (f : Nat), [')'] ∉ rest → 2 * rest.length + 2 ≤ f →
        ∃ items, parseOneF f (['('] :: rest) = (.list items, [])) ∧
    (∀ f : Nat, parseOneF f [] = (.list [], [])) := by
  refine ⟨parseOneF_fuel_ge, ?_, ?_, ?_⟩
  · intro rest f hf
    obtain ⟨f', rfl⟩ : ∃ f', f = f' + 1 := ⟨f - 1, by omega⟩
    rw [show parseOneF (f' + 1) ([')'] :: rest) =
        (if ([')'] : List Char) = ['('] then
          (.list (parseItemsF f' rest).1, (parseItemsF f' rest).2)
         else if ([')'] : List Char) = [')'] then (.list [], rest)
         else (.atom (unquote [')']), rest)) from rfl]
    rw [if_neg (by decide), if_pos rfl]
  · intro rest f hnr hf
    obtain ⟨f', rfl⟩ : ∃ f', f = f' + 1 := ⟨f - 1, by omega⟩
    refine ⟨(parseItemsF f' rest).1, ?_⟩
    have h2 : (parseItemsF f' rest).2 = [] := parseItemsF_no_rpar f' rest hnr (by omega)
    rw [show parseOneF (f' + 1) (['('] :: rest) =
        (if (['('] : List Char) = ['('] then
          (.list (parseItemsF f' rest).1, (parseItemsF f' rest).2)
         else if (['('] : List Char) = [')'] then (.list [], rest)
         else (.atom (unquote ['(']), rest)) from rfl]
    rw [if_pos rfl, h2]
  · intro f
    cases f <;> rfl

/-- C3 (witness): the amended theorem at concrete inputs. -/
theorem C3_witness :
    parseOneF 1 [[')'], ['a']] = (.list [], [['a']]) ∧
    (∃ items, parseOneF 6 [['('], ['a']] = (.list items, [])) ∧
    parseOneF 0 [] = (.list [], []) :=
  ⟨C3_parser_total_amended.2.1 [['a']] 1 (by decide),
   C3_parser_total_amended.2.2.1 [['a']] 6 (by decide) (by decide),
   C3_parser_total_amended.2.2.2 0⟩

/-- C4: `parse_kicad '(a (b "c\"d"))'` yields
`List [Atom "a", List [Atom "b", Atom "c\"d"]]`; in general a quoted-string
token has its quotes stripped and the `\"` and `\\` escape sequences
resolved to `"` and `\` in the resulting Atom value (stated via the
canonical escaping `pyEscape`: parsing a quoted token built from any
escaped body recovers exactly that body). -/
theorem C4_quoted_atoms :
    parse_kicad "(a (b \"c\\\"d\"))" =
      .list [.atom "a", .list [.atom "b", .atom "c\"d"]] ∧
    (∀ s : List Char, unquote ('"' :: (pyEscape s ++ ['"'])) = String.mk s) ∧
    (∀ (s : List Char) (f : Nat), 1 ≤ f →
      parseOneF f ['"' :: (pyEscape s ++ ['"'])] = (.atom (String.mk s), [])) := by
  refine ⟨by decide, unquote_escaped, ?_⟩
  intro s f hf
  obtain ⟨f', rfl⟩ : ∃ f', f = f' + 1 := ⟨f - 1, by omega⟩
  have h1 : ¬ ('"' :: (pyEscape s ++ ['"'])) = ['('] := by
    intro h
    injection h with hc _
    exact absurd hc (by decide)
  have h2 : ¬ ('"' :: (pyEscape s ++ ['"'])) = [')'] := by
    intro h
    injection h with hc _
    exact absurd hc (by decide)
  rw [show parseOneF (f' + 1) ['"' :: (pyEscape s ++ ['"'])] =
      (if ('"' :: (pyEscape s ++ ['"'])) = ['('] then
        (.list (parseItemsF f' []).1, (parseItemsF f' []).2)
       else if ('"' :: (pyEscape s ++ ['"'])) = [')'] then (.list [], [])
       else (.atom (unquote ('"' :: (pyEscape s ++ ['"']))), [])) from rfl]
  rw [if_neg h1, if_neg h2, unquote_escaped]

/-- C4 (witness): the general clause at the concrete body `x`. -/
theorem C4_witness :
    parseOneF 1 ['"' :: (pyEscape ['x'] ++ ['"'])] = (.atom (String.mk ['x']), []) :=
  C4_quoted_atoms.2.2 ['x'] 1 (by decide)

/-- C5: `find_elements` is exactly the depth-first pre-order enumeration of
the list subtrees filtered by "first element is an Atom equal to the name"
(document order, parent before descendants, matched nodes still traversed
into), and on the specification's example it returns exactly the two sheet
subtrees in document order. -/
theorem C5_find_elements_preorder :
    (∀ (tree : SExpr) (name : String),
      find_elements tree name =
        (preorderLists tree).filter (fun xs => decide (xs.head? = some (.atom name)))) ∧
    find_elements (parse_kicad "(root (sheet (at 0 0)) (sheet (at 1 1)))") "sheet" =
      [[.atom "sheet", .list [.atom "at", .atom "0", .atom "0"]],
       [.atom "sheet", .list [.atom "at", .atom "1", .atom "1"]]] ∧
    find_elements (parse_kicad "(sheet (sheet (at 0)))") "sheet" =
      [[.atom "sheet", .list [.atom "sheet", .list [.atom "at", .atom "0"]]],
       [.atom "sheet", .list [.atom "at", .atom "0"]]] :=
  ⟨fun tree name => findElementsRec_eq_filter name tree, by decide, by decide⟩

/-- C10: `parse_kicad` returns only the node of the first complete
top-level expression and silently ignores all remaining tokens; in
particular `"a b"` parses to `Atom "a"` and `"(a) (b)"` to `List [Atom "a"]`. -/
theorem C10_first_expression_only :
    (∀ (ts rest : List (List Char)) (e : SExpr), CompleteExpr ts e →
      (parseOneF (2 * (ts ++ rest).length + 1) (ts ++ rest)).1 = e) ∧
    parse_kicad "a b" = .atom "a" ∧
    parse_kicad "(a) (b)" = .list [.atom "a"] := by
  refine ⟨?_, by decide, by decide⟩
  intro ts rest e h
  rw [completeExpr_parse h rest _ (le_refl _)]

/-- C10 (witness): the general clause at the token lists of `"a b"`. -/
theorem C10_witness :
    (parseOneF (2 * ([['a']] ++ [['b']]).length + 1) ([['a']] ++ [['b']])).1 =
      .atom (unquote ['a']) :=
  C10_first_expression_only.1 [['a']] [['b']] _
    (CompleteExpr.atom ['a'] (by decide) (by decide))

theorem mapSlash_id {l : List Char} (h : '\\' ∉ l) :
    l.map (fun ch => if ch = '\\' then '/' else ch) = l := by
  induction l with
  | nil => rfl
  | cons c rest ih =>
    have hc : ¬ c = '\\' := fun he => h (he ▸ List.mem_cons_self c rest)
    have hr : '\\' ∉ rest := fun hm => h (List.mem_cons_of_mem c hm)
    simp [hc, ih hr]

/-- C7: library-URI resolution: a URI beginning with `${KICAD` is skipped
entirely and the library reaches neither the collected set nor the external
map; `${KIPRJMOD}/libs/foo.kicad_sym` under root `/proj` resolves to
`/proj/libs/foo.kicad_sym`; backslashes are normalised to forward slashes;
a still-relative URI resolves against the project root and an absolute URI
is used as-is. -/
theorem C7_resolve_lib_path :
    (∀ (dir : MyPath) (uri : String), pyStartsWith uri "$\x7bKICAD" = true →
        resolve_lib_path dir uri = none) ∧
    (∀ (fs : FS) (dir : MyPath) (c : Collector) (lib : List SExpr) (uri : String),
        get_element_value lib "uri" = some uri → pyStartsWith uri "$\x7bKICAD" = true →
        processLib fs dir c lib = c) ∧
    resolve_lib_path ⟨true, ["proj"]⟩ "$\x7bKIPRJMOD\x7d/libs/foo.kicad_sym" =
      some ⟨true, ["proj", "libs", "foo.kicad_sym"]⟩ ∧
    resolve_lib_path ⟨true, ["proj"]⟩ "libs\\foo.kicad_sym" =
      some ⟨true, ["proj", "libs", "foo.kicad_sym"]⟩ ∧
    (∀ (dir : MyPath) (uri : String), ¬ pyStartsWith uri "$\x7bKICAD" = true →
        ¬ pyStartsWith uri "$\x7bKIPRJMOD\x7d" = true → '\\' ∉ uri.toList →
        (MyPath.ofString uri).abs = false →
        resolve_lib_path dir uri = some (dir.join (MyPath.ofString uri))) ∧
    (∀ (dir : MyPath) (uri : String), ¬ pyStartsWith uri "$\x7bKICAD" = true →
        ¬ pyStartsWith uri "$\x7bKIPRJMOD\x7d" = true → '\\' ∉ uri.toList →
        (MyPath.ofString uri).abs = true →
        resolve_lib_path dir uri = some (MyPath.ofString uri)) := by
  have hplain : ∀ (dir : MyPath) (uri : String), ¬ pyStartsWith uri "$\x7bKICAD" = true →
      ¬ pyStartsWith uri "$\x7bKIPRJMOD\x7d" = true → '\\' ∉ uri.toList →
      resolve_lib_path dir uri =
        some (if (MyPath.ofString uri).abs = false then dir.join (MyPath.ofString uri)
              else MyPath.ofString uri) := by
    intro dir uri h1 h2 h3
    unfold resolve_lib_path
    rw [if_neg h1]
    simp only [h2, if_false, if_neg, Bool.false_eq_true]
    have hmap : String.mk (uri.toList.map (fun ch => if ch = '\\' then '/' else ch)) = uri := by
      rw [mapSlash_id h3]
      rfl
    rw [hmap]
    simp [Bool.not_eq_true]
  refine ⟨?_, ?_, by decide, by decide, ?_, ?_⟩
  · intro dir uri h
    unfold resolve_lib_path
    rw [if_pos h]
  · intro fs dir c lib uri hgv h
    have hres : resolve_lib_path dir uri = none := by
      unfold resolve_lib_path
      rw [if_pos h]
    by_cases hu : uri = ""
    · simp [processLib, hgv, hu]
    · simp [processLib, hgv, hu, hres]
  · intro dir uri h1 h2 h3 habs
    rw [hplain dir uri h1 h2 h3, if_pos habs]
  · intro dir uri h1 h2 h3 habs
    rw [hplain dir uri h1 h2 h3, if_neg (by simp [habs])]

/-- C7 (witness): the skip and relative-resolution clauses at concrete
inputs. -/
theorem C7_witness :
    resolve_lib_path ⟨true, ["proj"]⟩ "$\x7bKICAD7_SYMBOL_DIR\x7d/foo.kicad_sym" = none ∧
    processLib fsExt ⟨true, ["p"]⟩ Collector.init
      [.atom "lib", .list [.atom "uri", .atom "$\x7bKICAD7_SYMBOL_DIR\x7d/foo.kicad_sym"]] =
      Collector.init ∧
    resolve_lib_path ⟨true, ["proj"]⟩ "mylibs/foo.kicad_sym" =
      some ((⟨true, ["proj"]⟩ : MyPath).join (MyPath.ofString "mylibs/foo.kicad_sym")) ∧
    resolve_lib_path ⟨true, ["proj"]⟩ "/abs/foo.kicad_sym" =
      some (MyPath.ofString "/abs/foo.kicad_sym") :=
  ⟨C7_resolve_lib_path.1 _ _ (by decide),
   C7_resolve_lib_path.2.1 fsExt ⟨true, ["p"]⟩ Collector.init
     [.atom "lib", .list [.atom "uri", .atom "$\x7bKICAD7_SYMBOL_DIR\x7d/foo.kicad_sym"]]
     "$\x7bKICAD7_SYMBOL_DIR\x7d/foo.kicad_sym" (by decide) (by decide),
   C7_resolve_lib_path.2.2.2.2.1 _ _ (by decide) (by decide) (by decide) (by decide),
   C7_resolve_lib_path.2.2.2.2.2 _ _ (by decide) (by decide) (by decide) (by decide)⟩

/-- C8: a resolved library is classified external exactly when its
canonical path is not contained in the canonical project root's subtree
(component containment, not string prefix — the `/proj2` example is
external although `/proj` is a string prefix of it); an existing external
library is recorded in the external map under its declared name (else its
bare filename) keyed by its canonical path, leaving the collected set
unchanged; an internal one is added to the collected set, leaving the
external map unchanged; and every external key's archive destination is
`external_libs/<filename>`. -/
theorem C8_external_classification :
    (∀ (dir p : MyPath), is_external dir p = true ↔
        p.resolve.relativeTo dir.resolve = none) ∧
    is_external ⟨true, ["proj"]⟩ ⟨true, ["proj2", "lib.kicad_sym"]⟩ = true ∧
    (∀ (fs : FS) (dir : MyPath) (c : Collector) (lib : List SExpr) (uri : String) (lp : MyPath),
        get_element_value lib "uri" = some uri → ¬ uri = "" →
        resolve_lib_path dir uri = some lp → pathExists fs lp = true →
        is_external dir lp = true →
        processLib fs dir c lib =
          { c with
            external_files :=
              dictInsert c.external_files lp.resolve
                (match get_element_value lib "name" with
                 | some n => if n = "" then lp.name else n
                 | none => lp.name) }) ∧
    (∀ (fs : FS) (dir : MyPath) (c : Collector) (lib : List SExpr) (uri : String) (lp : MyPath),
        get_element_value lib "uri" = some uri → ¬ uri = "" →
        resolve_lib_path dir uri = some lp → pathExists fs lp = true →
        is_external dir lp = false →
        processLib fs dir c lib =
          { c with collected_files := insert lp.resolve c.collected_files }) ∧
    (∀ (dir : MyPath) (c : Collector) (p : MyPath) (v : String),
        lookupAssoc c.external_files p = some v →
        get_files_for_zip dir c p = some ("external_libs/" ++ p.name)) := by
  refine ⟨?_, by decide, ?_, ?_, ?_⟩
  · intro dir p
    unfold is_external
    exact ⟨fun h => Option.isNone_iff_eq_none.mp h,
      fun h => Option.isNone_iff_eq_none.mpr h⟩
  · intro fs dir c lib uri lp hgv hu hres hex hxt
    simp [processLib, hgv, hu, hres, hex, hxt]
  · intro fs dir c lib uri lp hgv hu hres hex hxt
    simp [processLib, hgv, hu, hres, hex, hxt]
  · intro dir c p v h
    simp [get_files_for_zip, h]

/-- C8 (witness): the classification and recording clauses on the concrete
external-library project. -/
theorem C8_witness :
    (is_external ⟨true, ["p"]⟩ ⟨true, ["ext", "lib.kicad_sym"]⟩ = true ↔
      (⟨true, ["ext", "lib.kicad_sym"]⟩ : MyPath).resolve.relativeTo
        (⟨true, ["p"]⟩ : MyPath).resolve = none) ∧
    processLib fsExt ⟨true, ["p"]⟩ Collector.init extLibElem =
      { Collector.init with
        external_files :=
          dictInsert Collector.init.external_files
            (⟨true, ["ext", "lib.kicad_sym"]⟩ : MyPath).resolve
            (match get_element_value extLibElem "name" with
             | some n => if n = "" then (⟨true, ["ext", "lib.kicad_sym"]⟩ : MyPath).name else n
             | none => (⟨true, ["ext", "lib.kicad_sym"]⟩ : MyPath).name) } ∧
    get_files_for_zip ⟨true, ["p"]⟩ (collect_all fsExt pcbX) ⟨true, ["ext", "lib.kicad_sym"]⟩ =
      some ("external_libs/" ++ (⟨true, ["ext", "lib.kicad_sym"]⟩ : MyPath).name) :=
  ⟨C8_external_classification.1 ⟨true, ["p"]⟩ ⟨true, ["ext", "lib.kicad_sym"]⟩,
   C8_external_classification.2.2.1 fsExt ⟨true, ["p"]⟩ Collector.init extLibElem
     "/ext/lib.kicad_sym" ⟨true, ["ext", "lib.kicad_sym"]⟩
     (by decide) (by decide) (by decide) (by decide) (by decide),
   C8_external_classification.2.2.2.2 ⟨true, ["p"]⟩ (collect_all fsExt pcbX)
     ⟨true, ["ext", "lib.kicad_sym"]⟩ "ExtLib" (by decide)⟩

/-- C9: a missing referenced file produces a warning and collection
continues: a missing project-metadata sibling or primary-schematic sibling
adds a warning naming the expected file; a missing primary schematic makes
Phase B a no-op; a missing sub-sheet adds a `Subsheet not found` warning
without touching the collected set; and on a concrete project with no
schematic, `collect_all` completes with exactly the schematic warning. -/
theorem C9_missing_files_warn :
    (∀ (fs : FS) (pcb : MyPath) (c : Collector),
        pathExists fs (pcb.parent.join (MyPath.ofString (pyStem pcb.name ++ ".kicad_pro"))) =
          false →
        ("Project file not found: " ++
            (pcb.parent.join (MyPath.ofString (pyStem pcb.name ++ ".kicad_pro"))).name) ∈
          (collect_core_files fs pcb c).warnings) ∧
    (∀ (fs : FS) (pcb : MyPath) (c : Collector),
        pathExists fs (pcb.parent.join (MyPath.ofString (pyStem pcb.name ++ ".kicad_sch"))) =
          false →
        ("Schematic file not found: " ++
            (pcb.parent.join (MyPath.ofString (pyStem pcb.name ++ ".kicad_sch"))).name) ∈
          (collect_core_files fs pcb c).warnings) ∧
    (∀ (fs : FS) (pcb : MyPath) (c : Collector),
        pathExists fs (pcb.parent.join (MyPath.ofString (pyStem pcb.name ++ ".kicad_sch"))) =
          false →
        collect_schematic_hierarchy fs pcb c = c) ∧
    (∀ (recur : MyPath → Collector → Finset MyPath → Collector × Finset MyPath)
        (fs : FS) (sp : MyPath) (st : Collector × Finset MyPath) (sheet : List SExpr)
        (sf : String),
        get_property sheet "Sheetfile" = some sf → ¬ sf = "" →
        pathExists fs (sp.parent.join (MyPath.ofString sf)) = false →
        processSheet recur fs sp st sheet =
          ({ st.1 with warnings := st.1.warnings ++ ["Subsheet not found: " ++ sf] }, st.2)) ∧
    ((collect_all fsMissing pcbX).warnings = ["Schematic file not found: x.kicad_sch"] ∧
     (collect_all fsMissing pcbX).collected_files =
       {⟨true, ["p", "x.kicad_pcb"]⟩, ⟨true, ["p", "x.kicad_pro"]⟩} ∧
     (collect_all fsMissing pcbX).external_files = []) := by
  refine ⟨?_, ?_, ?_, ?_, by decide, by decide, by decide⟩
  · intro fs pcb c hpro
    have hpro' : ¬ pathExists fs
        (pcb.parent.join (MyPath.ofString (pyStem pcb.name ++ ".kicad_pro"))) = true := by
      simp [hpro]
    by_cases h1 : pathExists fs pcb = true <;>
      by_cases h3 : pathExists fs
        (pcb.parent.join (MyPath.ofString (pyStem pcb.name ++ ".kicad_sch"))) = true <;>
        simp [collect_core_files, h1, hpro', h3]
  · intro fs pcb c hsch
    have hsch' : ¬ pathExists fs
        (pcb.parent.join (MyPath.ofString (pyStem pcb.name ++ ".kicad_sch"))) = true := by
      simp [hsch]
    by_cases h1 : pathExists fs pcb = true <;>
      by_cases h2 : pathExists fs
        (pcb.parent.join (MyPath.ofString (pyStem pcb.name ++ ".kicad_pro"))) = true <;>
        simp [collect_core_files, h1, h2, hsch']
  · intro fs pcb c hsch
    have hsch' : ¬ pathExists fs
        (pcb.parent.join (MyPath.ofString (pyStem pcb.name ++ ".kicad_sch"))) = true := by
      simp [hsch]
    simp [collect_schematic_hierarchy, hsch']
  · intro recur fs sp st sheet sf hgp hsf hex
    have hex' : ¬ pathExists fs (sp.parent.join (MyPath.ofString sf)) = true := by
      simp [hex]
    simp [processSheet, hgp, hsf, hex']

/-- C9 (witness): the warning clauses at the concrete project with a
missing schematic and a missing sub-sheet. -/
theorem C9_witness :
    ("Schematic file not found: " ++
        (pcbX.parent.join (MyPath.ofString (pyStem pcbX.name ++ ".kicad_sch"))).name) ∈
      (collect_core_files fsMissing pcbX Collector.init).warnings ∧
    collect_schematic_hierarchy fsMissing pcbX Collector.init = Collector.init ∧
    processSheet (parseSchematicSheetsF 1 fsMissing) fsMissing
      ⟨true, ["p", "x.kicad_sch"]⟩ (Collector.init, ∅)
      [.atom "sheet", .list [.atom "property", .atom "Sheetfile", .atom "nope.kicad_sch"]] =
      ({ Collector.init with
         warnings := Collector.init.warnings ++ ["Subsheet not found: nope.kicad_sch"] }, ∅) :=
  ⟨C9_missing_files_warn.2.1 fsMissing pcbX Collector.init (by decide),
   C9_missing_files_warn.2.2.1 fsMissing pcbX Collector.init (by decide),
   C9_missing_files_warn.2.2.2.1 (parseSchematicSheetsF 1 fsMissing) fsMissing
     ⟨true, ["p", "x.kicad_sch"]⟩ (Collector.init, ∅)
     [.atom "sheet", .list [.atom "property", .atom "Sheetfile", .atom "nope.kicad_sch"]]
     "nope.kicad_sch" (by decide) (by decide) (by decide)⟩

/-- C6: the Phase B traversal terminates on every reference graph (its
result is stable once the fuel covers the unvisited filesystem paths), a
schematic whose canonical path is already in the visited set is not
reprocessed (the call returns the state unchanged), and on the concrete
two-file cycle A↔B both schematics end up in the collected set exactly once
with no warnings. -/
theorem C6_cycle_safety :
    (∀ (fs : FS) (p : MyPath) (c : Collector) (v : Finset MyPath) (fuel : Nat),
        (fsDom fs \ v).card + 1 ≤ fuel →
        parseSchematicSheetsF fuel fs p c v =
          parseSchematicSheetsF ((fsDom fs \ v).card + 1) fs p c v) ∧
    (∀ (fuel : Nat) (fs : FS) (p : MyPath) (c : Collector) (v : Finset MyPath),
        p.resolve ∈ v → parseSchematicSheetsF fuel fs p c v = (c, v)) ∧
    ((collect_all fsCycle pcbA).collected_files =
        {⟨true, ["p", "a.kicad_pcb"]⟩, ⟨true, ["p", "a.kicad_pro"]⟩,
         ⟨true, ["p", "a.kicad_sch"]⟩, ⟨true, ["p", "b.kicad_sch"]⟩} ∧
     (collect_all fsCycle pcbA).warnings = [] ∧
     (collect_all fsCycle pcbA).external_files = []) := by
  refine ⟨?_, ?_, by decide, by decide, by decide⟩
  · intro fs p c v fuel h
    have heq := parseSheetsF_fuel_ge fs p c v (fuel - ((fsDom fs \ v).card + 1))
    rwa [show (fsDom fs \ v).card + 1 + (fuel - ((fsDom fs \ v).card + 1)) = fuel from by
      omega] at heq
  · intro fuel fs p c v hv
    cases fuel with
    | zero => rfl
    | succ fuel => simp [parseSchematicSheetsF, hv]

/-- C6 (witness): fuel stability and the visited-set early return on the
concrete cyclic project. -/
theorem C6_witness :
    parseSchematicSheetsF 9 fsCycle ⟨true, ["p", "a.kicad_sch"]⟩ Collector.init ∅ =
      parseSchematicSheetsF ((fsDom fsCycle \ ∅).card + 1) fsCycle
        ⟨true, ["p", "a.kicad_sch"]⟩ Collector.init ∅ ∧
    parseSchematicSheetsF 3 fsCycle ⟨true, ["p", "a.kicad_sch"]⟩ Collector.init
      {⟨true, ["p", "a.kicad_sch"]⟩} =
      (Collector.init, {⟨true, ["p", "a.kicad_sch"]⟩}) :=
  ⟨C6_cycle_safety.1 fsCycle ⟨true, ["p", "a.kicad_sch"]⟩ Collector.init ∅ 9 (by decide),
   C6_cycle_safety.2.1 3 fsCycle ⟨true, ["p", "a.kicad_sch"]⟩ Collector.init
     {⟨true, ["p", "a.kicad_sch"]⟩} (by decide)⟩

/-- C2 (counterexample): when the collector is constructed from a
non-canonical pcb path (here one containing a `..` segment), Phase A adds
that path to the Collected File Set as-is, so the set contains a member
that is not canonical. -/
theorem C2_counterexample :
    pcbDotted ∈ (collect_all fsDemo pcbDotted).collected_files ∧
      pcbDotted.resolve ≠ pcbDotted :=
  ⟨by decide, by decide⟩

/-- C2 (amended): provided the input pcb path is canonical (absolute, no
empty/dot/dot-dot segments), after every phase of `collect_all` every
member of the Collected File Set is a canonical absolute path (absolute and
a fixpoint of `resolve`), and the set holds at most one entry per
underlying file (members with equal canonical forms are equal). -/
theorem C2_collected_canonical_amended (fs : FS) (pcb : MyPath) (hpcb : IsCanon pcb) :
    (∀ q ∈ (collect_core_files fs pcb Collector.init).collected_files,
        q.abs = true ∧ q.resolve = q) ∧
    (∀ q ∈ (collect_schematic_hierarchy fs pcb
        (collect_core_files fs pcb Collector.init)).collected_files,
        q.abs = true ∧ q.resolve = q) ∧
    (∀ q ∈ (collect_all fs pcb).collected_files, q.abs = true ∧ q.resolve = q) ∧
    (∀ q ∈ (collect_all fs pcb).collected_files,
      ∀ r ∈ (collect_all fs pcb).collected_files, q.resolve = r.resolve → q = r) := by
  have h0 : ∀ q ∈ (Collector.init).collected_files, IsCanon q := by
    intro q hq
    simp [Collector.init] at hq
  have h1 : ∀ q ∈ (collect_core_files fs pcb Collector.init).collected_files, IsCanon q :=
    collect_core_canon hpcb h0
  have h2 : ∀ q ∈ (collect_schematic_hierarchy fs pcb
      (collect_core_files fs pcb Collector.init)).collected_files, IsCanon q :=
    collect_hierarchy_canon hpcb h1
  have h3 : ∀ q ∈ (collect_all fs pcb).collected_files, IsCanon q :=
    collect_syms_canon hpcb h2
  refine ⟨fun q hq => ⟨(h1 q hq).1, isCanon_resolve (h1 q hq)⟩,
    fun q hq => ⟨(h2 q hq).1, isCanon_resolve (h2 q hq)⟩,
    fun q hq => ⟨(h3 q hq).1, isCanon_resolve (h3 q hq)⟩,
    fun q hq r hr he => ?_⟩
  rw [← isCanon_resolve (h3 q hq), he, isCanon_resolve (h3 r hr)]

/-- C2 (witness): the amended theorem on the demonstration project. -/
theorem C2_witness : pcbX.abs = true ∧ pcbX.resolve = pcbX :=
  (C2_collected_canonical_amended fsDemo pcbX (by decide)).2.2.1 pcbX (by decide)

/-- C1 (counterexample): a collected file can lie outside the project root
(a sub-sheet referenced via `..`), in which case `get_files_for_zip`
assigns it its bare filename, not a path relative to the project root
(`relative_to` fails on it). -/
theorem C1_counterexample :
    (⟨true, ["q", "sub.kicad_sch"]⟩ : MyPath) ∈ (collect_all fsOut pcbX).collected_files ∧
    MyPath.relativeTo ⟨true, ["q", "sub.kicad_sch"]⟩ pcbX.parent = none ∧
    get_files_for_zip pcbX.parent (collect_all fsOut pcbX) ⟨true, ["q", "sub.kicad_sch"]⟩ =
      some "sub.kicad_sch" :=
  ⟨by decide, by decide, by decide⟩

/-- C1 (amended): provided the input pcb path is canonical and every
collected file lies under the project root (so `relative_to` succeeds on
it), `get_files_for_zip` assigns every Collected File Set member its path
relative to the project root, and every External File Map member the
destination `external_libs/` followed by its bare filename. -/
theorem C1_zip_mapping_amended (fs : FS) (pcb : MyPath) (hpcb : IsCanon pcb)
    (hsub : ∀ p ∈ (collect_all fs pcb).collected_files,
      (MyPath.relativeTo p pcb.parent).isSome = true) :
    (∀ p ∈ (collect_all fs pcb).collected_files,
        ∃ r, MyPath.relativeTo p pcb.parent = some r ∧
          get_files_for_zip pcb.parent (collect_all fs pcb) p = some r.toString) ∧
    (∀ e ∈ (collect_all fs pcb).external_files,
        get_files_for_zip pcb.parent (collect_all fs pcb) e.1 =
          some ("external_libs/" ++ e.1.name)) := by
  have hb : (collect_schematic_hierarchy fs pcb
      (collect_core_files fs pcb Collector.init)).external_files = [] := by
    rw [collect_hierarchy_external_eq, collect_core_external_eq]
    rfl
  have hout : ∀ e ∈ (collect_all fs pcb).external_files,
      MyPath.relativeTo e.1 pcb.parent = none := by
    apply collect_syms_external_outside hpcb
    rw [hb]
    intro e he
    simp at he
  constructor
  · intro p hp
    obtain ⟨r, hr⟩ := Option.isSome_iff_exists.mp (hsub p hp)
    refine ⟨r, hr, ?_⟩
    have hnone : lookupAssoc (collect_all fs pcb).external_files p = none := by
      rcases he : lookupAssoc (collect_all fs pcb).external_files p with _ | v
      · rfl
      · exfalso
        obtain ⟨e, hmem, hke⟩ := lookupAssoc_mem he
        have hn := hout e hmem
        rw [hke, hr] at hn
        exact Option.noConfusion hn
    simp [get_files_for_zip, hnone, hp, hr]
  · intro e he
    obtain ⟨v, hv⟩ := lookupAssoc_isSome_of_mem he
    simp [get_files_for_zip, hv]

/-- C1 (witness): the amended mapping on the end-to-end demonstration
project, at the sub-sheet member. -/
theorem C1_witness :
    ∃ r, MyPath.relativeTo ⟨true, ["p", "sub.kicad_sch"]⟩ pcbX.parent = some r ∧
      get_files_for_zip pcbX.parent (collect_all fsDemo pcbX)
        ⟨true, ["p", "sub.kicad_sch"]⟩ = some r.toString :=
  (C1_zip_mapping_amended fsDemo pcbX (by decide) (by decide)).1
    ⟨true, ["p", "sub.kicad_sch"]⟩ (by decide)

/-! ### Fuel sufficiency of the remaining fuelled loops (tokenizer and
general string replace): the wrappers' fuel choices are stable under any
increase, so the embeddings agree with the unbounded source loops. -/

theorem takeQuoted_len : ∀ l : List Char, (takeQuoted l).2.length ≤ l.length := by
  intro l
  induction l using takeQuoted.induct <;> simp_all [takeQuoted] <;> omega

theorem takeAtom_len : ∀ l : List Char, (takeAtom l).2.length ≤ l.length := by
  intro l
  induction l using takeAtom.induct <;> (simp_all [takeAtom]; try omega)

theorem takeAtom_cons_not_delim {c : Char} (rest : List Char) (h : ¬ isDelim c = true) :
    (takeAtom (c :: rest)).2 = (takeAtom rest).2 := by
  simp [takeAtom, h]

theorem tokenizeAux_stab :
    ∀ (f : Nat) (l : List Char), l.length ≤ f → tokenizeAux (f + 1) l = tokenizeAux f l := by
  intro f
  induction f with
  | zero =>
    intro l h
    have : l = [] := List.eq_nil_of_length_eq_zero (by omega)
    subst this
    rfl
  | succ f ih =>
    intro l h
    match l with
    | [] => rfl
    | c :: rest =>
      by_cases hws : isWs c = true
      · simp only [tokenizeAux, if_pos hws]
        exact ih rest (by simpa using h)
      · by_cases hlp : c = '('
        · simp only [tokenizeAux, if_neg hws, if_pos hlp]
          rw [ih rest (by simpa using h)]
        · by_cases hrp : c = ')'
          · simp only [tokenizeAux, if_neg hws, if_neg hlp, if_pos hrp]
            rw [ih rest (by simpa using h)]
          · by_cases hq : c = '"'
            · simp only [tokenizeAux, if_neg hws, if_neg hlp, if_neg hrp, if_pos hq]
              rw [ih (takeQuoted rest).2 (by
                have := takeQuoted_len rest
                simp at h
                omega)]
            · simp only [tokenizeAux, if_neg hws, if_neg hlp, if_neg hrp, if_neg hq]
              rw [ih (takeAtom (c :: rest)).2 (by
                have hdelim : ¬ isDelim c = true := by
                  simp [isDelim, hws, hlp, hrp, hq]
                rw [takeAtom_cons_not_delim rest hdelim]
                have := takeAtom_len rest
                simp at h
                omega)]

theorem tokenize_fuel_ge (text : String) (k : Nat) :
    tokenizeAux (text.toList.length + 1 + k) text.toList = tokenize text := by
  induction k with
  | zero => rfl
  | succ k ih =>
    rw [show text.toList.length + 1 + (k + 1) = (text.toList.length + 1 + k) + 1 from rfl,
      tokenizeAux_stab (text.toList.length + 1 + k) text.toList (by omega), ih]

theorem pyReplaceAllAux_stab (pat new : List Char) :
    ∀ (f : Nat) (l : List Char), l.length ≤ f →
      pyReplaceAllAux pat new (f + 1) l = pyReplaceAllAux pat new f l := by
  intro f
  induction f with
  | zero =>
    intro l h
    have : l = [] := List.eq_nil_of_length_eq_zero (by omega)
    subst this
    rfl
  | succ f ih =>
    intro l h
    match l with
    | [] => rfl
    | c :: rest =>
      by_cases hp : pat.isPrefixOf (c :: rest) = true
      · simp only [pyReplaceAllAux, if_pos hp]
        rw [ih (rest.drop (pat.length - 1)) (by
          have := List.length_drop (pat.length - 1) rest
          simp at h
          omega)]
      · simp only [pyReplaceAllAux, if_neg hp]
        rw [ih rest (by simpa using h)]

theorem pyReplaceAll_fuel_ge (s pat new : String) (k : Nat) (hpat : ¬ pat.toList = []) :
    String.mk (pyReplaceAllAux pat.toList new.toList (s.toList.length + 1 + k) s.toList) =
      pyReplaceAll s pat new := by
  unfold pyReplaceAll
  rw [if_neg hpat]
  congr 1
  induction k with
  | zero => rfl
  | succ k ih =>
    rw [show s.toList.length + 1 + (k + 1) = (s.toList.length + 1 + k) + 1 from rfl,
      pyReplaceAllAux_stab pat.toList new.toList (s.toList.length + 1 + k) s.toList (by omega),
      ih]
